import Mathlib

/-!
# barium-sample: game state, move generation, transition and search

A shallow embedding of `namespace barys` of `src/game.hpp` and `src/alpha_beta.hpp`.

* `std::uint32_t` bitsets are natural numbers; every operation that can leave the
  32-bit range in the source (`<<`, `~`, `_rotl`) is reduced `% 2 ^ 32` here.
* `std::array<std::uint32_t, 6>` is `Fin 6 → Nat`, `std::array<int, 4>` is `Fin 4 → Int`.
  The `int` hand counters and scores are mathematical integers: signed overflow is
  undefined in the source, and a game holds 16 pieces.
* `enum class piece_type : int` is `Fin 6`; `static_cast` between the enum and `int`
  is the identity.
* Loops of the form `for (b = x; b; b &= b - 1)` run on explicit fuel 32 (one
  iteration per bit of a 32-bit word).
* `state::next` returns `none` where the source would shift by an amount outside
  `0..31` or index an array out of range.
-/

namespace barys

/-! ## Piece kinds -/

/-- The enum `piece_type`, with its explicit integer values. -/
abbrev piece_type := Fin 6

namespace piece_type
def chick : piece_type := 0
def cat : piece_type := 1
def dog : piece_type := 2
def lion : piece_type := 3
def chicken : piece_type := 4
def power_up_cat : piece_type := 5
end piece_type

/-- The function `promoted` of `game.hpp`. -/
def promoted (p : piece_type) : piece_type :=
  if p = piece_type.chick then piece_type.chicken
  else if p = piece_type.cat then piece_type.power_up_cat
  else p

/-- The function `demoted` of `game.hpp`. -/
def demoted (p : piece_type) : piece_type :=
  if p = piece_type.chicken then piece_type.chick
  else if p = piece_type.power_up_cat then piece_type.cat
  else p

/-! ## 32-bit primitives -/

/-- Bitwise complement of a 32-bit word (`~x`). -/
def not32 (x : Nat) : Nat := x ^^^ 0xFFFFFFFF

/-- Left shift of a 32-bit word (`x << n`), the bits shifted out are lost. -/
def shl32 (x n : Nat) : Nat := (x <<< n) % 2 ^ 32

/-- The intrinsic `_rotl`: rotate a 32-bit word left by `n` (taken modulo 32). -/
def rotl32 (x n : Nat) : Nat :=
  (shl32 x (n % 32)) ||| (x >>> (32 - n % 32))

/-- Trailing-zero count on `fuel` bits; all `fuel` bits clear gives `fuel`. -/
def tzcnt_aux : Nat → Nat → Nat
  | 0, _ => 0
  | fuel + 1, x => if x % 2 = 1 then 0 else tzcnt_aux fuel (x / 2) + 1

/-- The intrinsic `_tzcnt_u32`: index of the lowest set bit, 32 for the word 0. -/
def tzcnt_u32 (x : Nat) : Nat := tzcnt_aux 32 x

/-- The intrinsic `_mm_popcnt_u32`: number of set bits of a 32-bit word. -/
def popcnt_u32 (x : Nat) : Nat :=
  ((List.range 32).map fun i => (x.testBit i).toNat).sum

/-- The loop `for (b = x; b; b &= b - 1) body(_tzcnt_u32(b))`: the successive values
of `_tzcnt_u32(b)` seen by the body, in order. -/
def bit_loop : Nat → Nat → List Nat
  | 0, _ => []
  | fuel + 1, b => if b = 0 then [] else tzcnt_u32 b :: bit_loop fuel (b &&& (b - 1))

/-! ## Constants and `control` -/

def board_bits : Nat := 0b00111111111111111111111111111111
def enemy_side_bits : Nat := 0b00000000000000000000001111111111

def piece_controls : List Nat :=
  [0b00001000000000000000000000000000,
   0b00011100000000000000000001010000,
   0b10011100000000000000000000100010,
   0b10011100000000000000000001110010,
   0b10011100000000000000000000100010,
   0b10011100000000000000000000100010]

def control_masks : List Nat :=
  [0b00000000000000000000000001100011,
   0b00000000000000000000000011100111,
   0b00000000000000000000000111001110,
   0b00000000000000000000001110011100,
   0b00000000000000000000001100011000,
   0b00000000000000000000110001100011,
   0b00000000000000000001110011100111,
   0b00000000000000000011100111001110,
   0b00000000000000000111001110011100,
   0b00000000000000000110001100011000,
   0b00000000000000011000110001100000,
   0b00000000000000111001110011100000,
   0b00000000000001110011100111000000,
   0b00000000000011100111001110000000,
   0b00000000000011000110001100000000,
   0b00000000001100011000110000000000,
   0b00000000011100111001110000000000,
   0b00000000111001110011100000000000,
   0b00000001110011100111000000000000,
   0b00000001100011000110000000000000,
   0b00000110001100011000000000000000,
   0b00001110011100111000000000000000,
   0b00011100111001110000000000000000,
   0b00111001110011100000000000000000,
   0b00110001100011000000000000000000,
   0b00000110001100000000000000000000,
   0b00001110011100000000000000000000,
   0b00011100111000000000000000000000,
   0b00111001110000000000000000000000,
   0b00110001100000000000000000000000]

/-- The function `control`: the movement pattern of the kind rotated to the square
`bit`, clipped by the adjacency mask of that square. A read of `control_masks`
outside `0..29` (undefined in the source) yields 0. -/
def control (p : piece_type) (bit : Nat) : Nat :=
  rotl32 (piece_controls.getD p.val 0) bit &&& control_masks.getD bit 0

/-! ## Actions and states -/

/-- The class `action`; the member `to` is spelled `to_` (`to` is reserved). -/
structure action where
  from_board : Int
  from_hand : Int
  to_ : Int
  deriving DecidableEq, Repr

/-- The default constructor `action()`. -/
def action.default : action := ⟨0, 0, 0⟩

/-- The class `state`. -/
structure state where
  pieces_on_board : Fin 6 → Nat
  piece_counts_in_hand : Fin 4 → Int
  enemy_pieces_on_board : Fin 6 → Nat
  enemy_piece_counts_in_hand : Fin 4 → Int

/-- An array literal of six words. -/
def arr6 (l : List Nat) : Fin 6 → Nat := fun i => l.getD i.val 0

/-- An array literal of four counters. -/
def arr4 (l : List Int) : Fin 4 → Int := fun i => l.getD i.val 0

/-- The default constructor `state()`: the starting layout. -/
def state.default : state :=
  ⟨arr6 [0b00000000000001110000000000000000,
         0b00100010000000000000000000000000,
         0b00010100000000000000000000000000,
         0b00001000000000000000000000000000,
         0b00000000000000000000000000000000,
         0b00000000000000000000000000000000],
   arr4 [0, 0, 0, 0],
   arr6 [0b00000000000000000011100000000000,
         0b00000000000000000000000000010001,
         0b00000000000000000000000000001010,
         0b00000000000000000000000000000100,
         0b00000000000000000000000000000000,
         0b00000000000000000000000000000000],
   arr4 [0, 0, 0, 0]⟩

/-- The member `state::is_end`: the enemy hand count of the lion. -/
def state.is_end (s : state) : Int :=
  s.enemy_piece_counts_in_hand ⟨3, by decide⟩

/-- The fold `boost::accumulate(a, 0u, std::bit_or<std::uint32_t>())`. -/
def accumulate_or (a : Fin 6 → Nat) : Nat :=
  (List.finRange 6).foldl (fun acc i => acc ||| a i) 0

/-- The private member `state::chick_allowed_bits`. -/
def state.chick_allowed_bits (s : state) : Nat :=
  let chick_bits := s.pieces_on_board piece_type.chick
  let r1 := [5, 10, 15, 20, 25].foldl (fun r i => r ||| shl32 chick_bits i) 0
  let r2 := [5, 10, 15, 20, 25].foldl (fun r i => r ||| chick_bits >>> i) r1
  let r3 := r2 ||| 0b00000000000000000000000000011111
  let r4 := r3 ||| shl32 (s.enemy_pieces_on_board piece_type.lion) 5
  not32 r4

/-- The board-move part of `state::actions` (the first triple loop). -/
def state.move_actions (s : state) : List action :=
  let vacant_bits := not32 (accumulate_or s.pieces_on_board)
  (List.finRange 6).flatMap fun i =>
    (bit_loop 32 (s.pieces_on_board i)).flatMap fun (from_sq : Nat) =>
      (bit_loop 32 (control i from_sq &&& vacant_bits)).map fun (to_sq : Nat) =>
        (⟨(from_sq : Int), -1, (to_sq : Int)⟩ : action)

/-- The chick-drop part of `state::actions` (hand index 0). -/
def state.chick_drop_actions (s : state) : List action :=
  let vacant_bits := not32 (accumulate_or s.pieces_on_board)
  let enemy_vacant_bits := not32 (accumulate_or s.enemy_pieces_on_board)
  if s.piece_counts_in_hand 0 ≠ 0 then
    (bit_loop 32 (board_bits &&& vacant_bits &&& enemy_vacant_bits &&& s.chick_allowed_bits)).map
      fun (to_sq : Nat) => (⟨-1, 0, (to_sq : Int)⟩ : action)
  else []

/-- The remaining drops of `state::actions`: the loop `for (i = 1; i < 3; ++i)`. -/
def state.other_drop_actions (s : state) : List action :=
  let vacant_bits := not32 (accumulate_or s.pieces_on_board)
  let enemy_vacant_bits := not32 (accumulate_or s.enemy_pieces_on_board)
  ([1, 2] : List (Fin 4)).flatMap fun i =>
    if s.piece_counts_in_hand i ≠ 0 then
      (bit_loop 32 (board_bits &&& vacant_bits &&& enemy_vacant_bits)).map
        fun (to_sq : Nat) => (⟨-1, (i.val : Int), (to_sq : Int)⟩ : action)
    else []

/-- The member `state::actions`: moves, then chick drops, then the other drops. -/
def state.actions (s : state) : List action :=
  s.move_actions ++ s.chick_drop_actions ++ s.other_drop_actions

/-! ## Perspective flip -/

def reversed : List Nat :=
  [0x00, 0x80, 0x40, 0xC0, 0x20, 0xA0, 0x60, 0xE0, 0x10, 0x90, 0x50, 0xD0, 0x30, 0xB0, 0x70, 0xF0,
   0x08, 0x88, 0x48, 0xC8, 0x28, 0xA8, 0x68, 0xE8, 0x18, 0x98, 0x58, 0xD8, 0x38, 0xB8, 0x78, 0xF8,
   0x04, 0x84, 0x44, 0xC4, 0x24, 0xA4, 0x64, 0xE4, 0x14, 0x94, 0x54, 0xD4, 0x34, 0xB4, 0x74, 0xF4,
   0x0C, 0x8C, 0x4C, 0xCC, 0x2C, 0xAC, 0x6C, 0xEC, 0x1C, 0x9C, 0x5C, 0xDC, 0x3C, 0xBC, 0x7C, 0xFC,
   0x02, 0x82, 0x42, 0xC2, 0x22, 0xA2, 0x62, 0xE2, 0x12, 0x92, 0x52, 0xD2, 0x32, 0xB2, 0x72, 0xF2,
   0x0A, 0x8A, 0x4A, 0xCA, 0x2A, 0xAA, 0x6A, 0xEA, 0x1A, 0x9A, 0x5A, 0xDA, 0x3A, 0xBA, 0x7A, 0xFA,
   0x06, 0x86, 0x46, 0xC6, 0x26, 0xA6, 0x66, 0xE6, 0x16, 0x96, 0x56, 0xD6, 0x36, 0xB6, 0x76, 0xF6,
   0x0E, 0x8E, 0x4E, 0xCE, 0x2E, 0xAE, 0x6E, 0xEE, 0x1E, 0x9E, 0x5E, 0xDE, 0x3E, 0xBE, 0x7E, 0xFE,
   0x01, 0x81, 0x41, 0xC1, 0x21, 0xA1, 0x61, 0xE1, 0x11, 0x91, 0x51, 0xD1, 0x31, 0xB1, 0x71, 0xF1,
   0x09, 0x89, 0x49, 0xC9, 0x29, 0xA9, 0x69, 0xE9, 0x19, 0x99, 0x59, 0xD9, 0x39, 0xB9, 0x79, 0xF9,
   0x05, 0x85, 0x45, 0xC5, 0x25, 0xA5, 0x65, 0xE5, 0x15, 0x95, 0x55, 0xD5, 0x35, 0xB5, 0x75, 0xF5,
   0x0D, 0x8D, 0x4D, 0xCD, 0x2D, 0xAD, 0x6D, 0xED, 0x1D, 0x9D, 0x5D, 0xDD, 0x3D, 0xBD, 0x7D, 0xFD,
   0x03, 0x83, 0x43, 0xC3, 0x23, 0xA3, 0x63, 0xE3, 0x13, 0x93, 0x53, 0xD3, 0x33, 0xB3, 0x73, 0xF3,
   0x0B, 0x8B, 0x4B, 0xCB, 0x2B, 0xAB, 0x6B, 0xEB, 0x1B, 0x9B, 0x5B, 0xDB, 0x3B, 0xBB, 0x7B, 0xFB,
   0x07, 0x87, 0x47, 0xC7, 0x27, 0xA7, 0x67, 0xE7, 0x17, 0x97, 0x57, 0xD7, 0x37, 0xB7, 0x77, 0xF7,
   0x0F, 0x8F, 0x4F, 0xCF, 0x2F, 0xAF, 0x6F, 0xEF, 0x1F, 0x9F, 0x5F, 0xDF, 0x3F, 0xBF, 0x7F, 0xFF]

/-- The private member `state::reverse(std::uint32_t)`: the four bytes of the word
are reversed through the table and reassembled in opposite order. The source
computes in `int` and converts back to `std::uint32_t`; the bit pattern is the
same. -/
def reverse (piece_bits : Nat) : Nat :=
  (reversed.getD (piece_bits &&& 0x000000ff) 0) <<< 24 |||
  (reversed.getD (piece_bits >>> 8 &&& 0x000000ff) 0) <<< 16 |||
  (reversed.getD (piece_bits >>> 16 &&& 0x000000ff) 0) <<< 8 |||
  (reversed.getD (piece_bits >>> 24) 0)

/-- The per-bitset step of `state::reverse(std::array*)`: `reverse(b << 2)`. -/
def flip (b : Nat) : Nat := reverse (shl32 b 2)

/-- The private member `state::reverse(std::array<std::uint32_t, 6>*)`. -/
def reverse_all (a : Fin 6 → Nat) : Fin 6 → Nat := fun i => flip (a i)

/-! ## Transition -/

/-- The first loop of `state::next`: the first enemy kind holding the target bit
loses it and its demoted kind is counted into the hand; then `break`. -/
def capture_loop (to_bit : Nat) :
    List (Fin 6) → (Fin 6 → Nat) → (Fin 4 → Int) → Option ((Fin 6 → Nat) × (Fin 4 → Int))
  | [], e, h => some (e, h)
  | i :: rest, e, h =>
    if e i &&& to_bit ≠ 0 then
      if hd : (demoted i).val < 4 then
        some (Function.update e i (e i &&& not32 to_bit),
              Function.update h ⟨(demoted i).val, hd⟩ (h ⟨(demoted i).val, hd⟩ + 1))
      else none
    else capture_loop to_bit rest e h

/-- The second loop of `state::next`: the first own kind holding the origin bit
loses it, and the target bit is set in that kind or, inside `enemy_side_bits`, in
its promoted kind; then `break`. -/
def move_loop (from_bit to_bit : Nat) : List (Fin 6) → (Fin 6 → Nat) → (Fin 6 → Nat)
  | [], o => o
  | i :: rest, o =>
    if o i &&& from_bit ≠ 0 then
      let o1 := Function.update o i (o i &&& not32 from_bit)
      let j := if to_bit &&& enemy_side_bits ≠ 0 then promoted i else i
      Function.update o1 j (o1 j ||| to_bit)
    else move_loop from_bit to_bit rest o

/-- The member `state::next`. -/
def state.next (s : state) (a : action) : Option state :=
  if 0 ≤ a.from_board then
    if a.from_board < 32 ∧ 0 ≤ a.to_ ∧ a.to_ < 32 then
      let from_bit := 1 <<< a.from_board.toNat
      let to_bit := 1 <<< a.to_.toNat
      match capture_loop to_bit (List.finRange 6) s.enemy_pieces_on_board s.piece_counts_in_hand with
      | none => none
      | some (next_enemy, next_hand) =>
        let next_own := move_loop from_bit to_bit (List.finRange 6) s.pieces_on_board
        some ⟨reverse_all next_enemy, s.enemy_piece_counts_in_hand, reverse_all next_own, next_hand⟩
    else none
  else
    if hh : 0 ≤ a.from_hand ∧ a.from_hand < 4 ∧ 0 ≤ a.to_ ∧ a.to_ < 32 then
      let k4 : Fin 4 := ⟨a.from_hand.toNat, by omega⟩
      let k6 : Fin 6 := ⟨a.from_hand.toNat, by omega⟩
      let next_hand := Function.update s.piece_counts_in_hand k4 (s.piece_counts_in_hand k4 - 1)
      let next_own := Function.update s.pieces_on_board k6 (s.pieces_on_board k6 ||| 1 <<< a.to_.toNat)
      some ⟨reverse_all s.enemy_pieces_on_board, s.enemy_piece_counts_in_hand,
            reverse_all next_own, next_hand⟩
    else none

/-! ## Well-formed positions and piece totals -/

/-- A position is well-formed when its twelve bitsets are pairwise disjoint, none
has a bit outside the low 30 bits, and all eight hand counts are non-negative. -/
def state.well_formed (s : state) : Prop :=
  (∀ i j, i ≠ j → s.pieces_on_board i &&& s.pieces_on_board j = 0) ∧
  (∀ i j, i ≠ j → s.enemy_pieces_on_board i &&& s.enemy_pieces_on_board j = 0) ∧
  (∀ i j, s.pieces_on_board i &&& s.enemy_pieces_on_board j = 0) ∧
  (∀ i, s.pieces_on_board i < 2 ^ 30) ∧
  (∀ i, s.enemy_pieces_on_board i < 2 ^ 30) ∧
  (∀ k, 0 ≤ s.piece_counts_in_hand k) ∧
  (∀ k, 0 ≤ s.enemy_piece_counts_in_hand k)

instance (s : state) : Decidable s.well_formed := by
  unfold state.well_formed; infer_instance

/-- Number of pieces on one side of the board: the popcounts of its six bitsets. -/
def board_count (a : Fin 6 → Nat) : Int :=
  ((List.finRange 6).map fun i => (popcnt_u32 (a i) : Int)).sum

/-- Number of pieces in one hand. -/
def hand_count (h : Fin 4 → Int) : Int :=
  ((List.finRange 4).map fun k => h k).sum

/-- Total piece count of a position: both boards and both hands. -/
def state.total_pieces (s : state) : Int :=
  board_count s.pieces_on_board + board_count s.enemy_pieces_on_board +
    hand_count s.piece_counts_in_hand + hand_count s.enemy_piece_counts_in_hand

/-! ## Closed forms used to describe `next` -/

/-- The kind in which a piece of kind `i` moved to the target bit `to_bit`
lands: the index expression `to & enemy_side_bits ? promoted(i) : i` of `next`. -/
def landing_kind (i : Fin 6) (to_bit : Nat) : Fin 6 :=
  if to_bit &&& enemy_side_bits ≠ 0 then promoted i else i

/-- The own bitsets after the second loop of `next` has hit kind `i`: the origin
bit cleared in kind `i`, then the target bit set in the landing kind. -/
def moved_board (o : Fin 6 → Nat) (i : Fin 6) (from_bit to_bit : Nat) : Fin 6 → Nat :=
  Function.update (Function.update o i (o i &&& not32 from_bit)) (landing_kind i to_bit)
    (Function.update o i (o i &&& not32 from_bit) (landing_kind i to_bit) ||| to_bit)

/-- Bit-level disjointness and range of the twelve bitsets of a position. -/
def board_ok (o e : Fin 6 → Nat) : Prop :=
  (∀ i, o i < 2 ^ 30) ∧ (∀ i, e i < 2 ^ 30) ∧
  (∀ i j n, (o i).testBit n = true → (o j).testBit n = true → i = j) ∧
  (∀ i j n, (e i).testBit n = true → (e j).testBit n = true → i = j) ∧
  (∀ i j n, (o i).testBit n = true → (e j).testBit n = true → False)

/-- The occupied cells (kind, square) of one side of the board. -/
def cells (a : Fin 6 → Nat) : Finset (Fin 6 × Nat) :=
  (Finset.univ ×ˢ Finset.range 32).filter fun p => (a p.1).testBit p.2 = true

/-- Positions reachable from the starting layout through generated actions. -/
inductive reachable : state → Prop
  | start : reachable state.default
  | step (p q : state) (a : action) :
      reachable p → a ∈ p.actions → p.next a = some q → reachable q

/-! ## Search (`alpha_beta.hpp`)

The class `alpha_beta` reads the wall clock once per call of `score`. The clock is
an oracle `expired : Nat → Bool`: `expired n` is the outcome of the `n`-th test
`std::chrono::system_clock::now() > _time_limit` of one top-level search, and every
function threads the number of tests made so far. The `int depth` of `score` is a
natural number: the top-level call passes 7 and each level passes `depth - 1` until
the test `depth == 0`. A transition that is undefined (`next` is `none`) makes the
search undefined (`none`). -/

namespace alpha_beta

/-- The private member `alpha_beta::board_score`. -/
def board_score (pieces_on_board : Fin 6 → Nat) : Int :=
  (popcnt_u32 (pieces_on_board piece_type.chick) : Int) * 100 +
  (popcnt_u32 (pieces_on_board piece_type.cat) : Int) * 1000 +
  (popcnt_u32 (pieces_on_board piece_type.dog) : Int) * 1200 +
  (popcnt_u32 (pieces_on_board piece_type.chicken) : Int) * 1200 +
  (popcnt_u32 (pieces_on_board piece_type.power_up_cat) : Int) * 1200

/-- The private member `alpha_beta::hand_score`. -/
def hand_score (piece_counts_in_hand : Fin 4 → Int) : Int :=
  piece_counts_in_hand 0 * 100 + piece_counts_in_hand 1 * 1000 + piece_counts_in_hand 2 * 1200

/-- The private member `alpha_beta::evaluate`. -/
def evaluate (s : state) : Int :=
  board_score s.pieces_on_board - board_score s.enemy_pieces_on_board +
    hand_score s.piece_counts_in_hand - hand_score s.enemy_piece_counts_in_hand

/-- The loop over `state.actions()` in `alpha_beta::score`; `child` is the recursive
call at `depth - 1`. Returns the value and the number of clock tests made. -/
def score_loop (child : state → Int → Int → Nat → Option (Int × Nat)) (s : state) :
    List action → Int → Int → Nat → Option (Int × Nat)
  | [], alpha, _, tick => some (alpha, tick)
  | a :: rest, alpha, beta, tick =>
    match s.next a with
    | none => none
    | some q =>
      match child q (-beta) (-alpha) tick with
      | none => none
      | some (r, tick1) =>
        let alpha1 := if -r > alpha then -r else alpha
        if alpha1 ≥ beta then some (alpha1, tick1)
        else score_loop child s rest alpha1 beta tick1

/-- The private member `alpha_beta::score`. -/
def score (expired : Nat → Bool) : Nat → state → Int → Int → Nat → Option (Int × Nat)
  | 0, s, alpha, _, tick =>
    if expired tick then some (alpha, tick + 1)
    else if s.is_end ≠ 0 then some (-100000, tick + 1)
    else some (evaluate s, tick + 1)
  | depth + 1, s, alpha, beta, tick =>
    if expired tick then some (alpha, tick + 1)
    else if s.is_end ≠ 0 then some (-100000, tick + 1)
    else score_loop (score expired depth) s s.actions alpha beta (tick + 1)

/-- The loop of `alpha_beta::operator()`: the action kept so far, `alpha`, and the
number of clock tests made. -/
def root_loop (expired : Nat → Bool) (s : state) :
    List action → Int → action → Nat → Option (action × Int × Nat)
  | [], alpha, result, tick => some (result, alpha, tick)
  | a :: rest, alpha, result, tick =>
    match s.next a with
    | none => none
    | some q =>
      match score expired 7 q (-1000000) (-alpha) tick with
      | none => none
      | some (r, tick1) =>
        if -r > alpha then root_loop expired s rest (-r) a tick1
        else root_loop expired s rest alpha result tick1

/-- The member `alpha_beta::operator()`. -/
def call (expired : Nat → Bool) (s : state) : Option action :=
  (root_loop expired s s.actions (-1000000) action.default 0).map fun r => r.1

/-- The unpruned negamax value as the specification defines it: -100000 on a
terminal position, `evaluate` at depth 0, otherwise the maximum of -1000000 and of
the negated values of the successors at depth `d - 1`. -/
def negamax : Nat → state → Int
  | 0, s => if s.is_end ≠ 0 then -100000 else evaluate s
  | d + 1, s =>
    if s.is_end ≠ 0 then -100000
    else (s.actions.map fun a =>
      (s.next a).elim (-1000000) fun q => -negamax d q).foldl max (-1000000)

/-- The score of a root action: the negated 7-ply negamax value of its successor. -/
def root_value (s : state) (a : action) : Int :=
  (s.next a).elim (-1000000) fun q => -negamax 7 q

end alpha_beta

/-- All twelve bitsets are 32-bit words: the values of the type
`std::array<std::uint32_t, 6>`. -/
def state.word32 (s : state) : Prop :=
  (∀ i, s.pieces_on_board i < 2 ^ 32) ∧ (∀ i, s.enemy_pieces_on_board i < 2 ^ 32)

instance (s : state) : Decidable s.word32 := by
  unfold state.word32; infer_instance

/-- What a search procedure must return at depth `d` on a window inside
`[-1000000, 1000000]`: the negamax value when it lies in the window, a bound on
the same side otherwise. -/
def sound_at (child : state → Int → Int → Nat → Option (Int × Nat)) (d : Nat) : Prop :=
  ∀ q : state, q.word32 → ∀ (alpha beta : Int) (tick : Nat),
    -1000000 ≤ alpha → alpha < beta → beta ≤ 1000000 →
    ∃ r t, child q alpha beta tick = some (r, t) ∧
      (alpha_beta.negamax d q ≤ alpha → r ≤ alpha) ∧
      (alpha < alpha_beta.negamax d q → alpha_beta.negamax d q < beta →
        r = alpha_beta.negamax d q) ∧
      (beta ≤ alpha_beta.negamax d q → beta ≤ r)

/-! ## Movement patterns as steps -/

/-- The steps `(dcol, drow)` of each kind as the specification lists them:
chick one step up; cat the three upper squares and the two lower diagonals; lion all
eight neighbours; dog, chicken and power-up cat the three upper squares, both sides
and straight down. -/
def step_pattern (k : piece_type) : List (Int × Int) :=
  if k = piece_type.chick then [(0, -1)]
  else if k = piece_type.cat then [(-1, -1), (0, -1), (1, -1), (-1, 1), (1, 1)]
  else if k = piece_type.lion then
    [(-1, -1), (0, -1), (1, -1), (-1, 0), (1, 0), (-1, 1), (0, 1), (1, 1)]
  else [(-1, -1), (0, -1), (1, -1), (-1, 0), (1, 0), (0, 1)]

/-- Square `t` is a board square other than `s`, in an adjacent row and column, and
the step from `s` to `t` belongs to the pattern of kind `k`; a square is
`(row, col) = (s / 5, s % 5)`. -/
def reaches (k : piece_type) (s t : Nat) : Prop :=
  t < 30 ∧ t ≠ s ∧
  ((t / 5 : Nat) : Int) - ((s / 5 : Nat) : Int) ≤ 1 ∧
  ((s / 5 : Nat) : Int) - ((t / 5 : Nat) : Int) ≤ 1 ∧
  ((t % 5 : Nat) : Int) - ((s % 5 : Nat) : Int) ≤ 1 ∧
  ((s % 5 : Nat) : Int) - ((t % 5 : Nat) : Int) ≤ 1 ∧
  (((t % 5 : Nat) : Int) - ((s % 5 : Nat) : Int),
    ((t / 5 : Nat) : Int) - ((s / 5 : Nat) : Int)) ∈ step_pattern k

instance (k : piece_type) (s t : Nat) : Decidable (reaches k s t) := by
  unfold reaches; infer_instance

/-! ## The action buffer -/

/-- The capacity of the `boost::container::static_vector` in which `state::actions`
builds its result. -/
def actions_capacity : Nat := 4 * 3 + 14 * 5 + 12 * 8 + 1 * 25 + 2 * 28

/-- All ordered pairs `(s, t)` of board squares with `t` among the eight neighbours
of `s` (the squares the lion controls from `s`). -/
def neighbour_pairs : List (Nat × Nat) :=
  (List.range 30).flatMap fun s =>
    (bit_loop 32 (control piece_type.lion s)).map fun t => (s, t)

/-- Square `n` holds a piece of either side. -/
def state.occupied (s : state) (n : Nat) : Prop :=
  ∃ i, (s.pieces_on_board i).testBit n = true ∨ (s.enemy_pieces_on_board i).testBit n = true

instance (s : state) (n : Nat) : Decidable (s.occupied n) := by
  unfold state.occupied; infer_instance

/-! ## Sample positions -/

/-- The starting layout with one lion in the own hand. -/
def lion_in_hand_state : state :=
  ⟨state.default.pieces_on_board, arr4 [0, 0, 0, 1],
   state.default.enemy_pieces_on_board, arr4 [0, 0, 0, 0]⟩

/-- The starting layout without the enemy chick of square 11, that chick in the own
hand. -/
def chick_in_hand_state : state :=
  ⟨state.default.pieces_on_board, arr4 [1, 0, 0, 0],
   arr6 [0b00000000000000000011000000000000,
         0b00000000000000000000000000010001,
         0b00000000000000000000000000001010,
         0b00000000000000000000000000000100,
         0b00000000000000000000000000000000,
         0b00000000000000000000000000000000],
   arr4 [0, 0, 0, 0]⟩

/-- Own chick on 7 behind the enemy lion on 2, own lion on 27: the first generated
action captures the lion. -/
def lion_capture_state : state :=
  ⟨arr6 [0b00000000000000000000000010000000, 0, 0,
         0b00001000000000000000000000000000, 0, 0],
   arr4 [0, 0, 0, 0],
   arr6 [0, 0, 0, 0b00000000000000000000000000000100, 0, 0],
   arr4 [0, 0, 0, 0]⟩

/-! ## Bit-level lemmas -/

theorem testBit_not32 (x j : Nat) :
    (not32 x).testBit j = (x.testBit j ^^ decide (j < 32)) := by
  have h : (0xFFFFFFFF : Nat) = 2 ^ 32 - 1 := by norm_num
  rw [not32, Nat.testBit_xor, h, Nat.testBit_two_pow_sub_one]

theorem testBit_shl32 (x n j : Nat) :
    (shl32 x n).testBit j = (decide (j < 32) && (decide (n ≤ j) && x.testBit (j - n))) := by
  rw [shl32, Nat.testBit_mod_two_pow, Nat.testBit_shiftLeft]

theorem shl32_lt (x n : Nat) : shl32 x n < 2 ^ 32 :=
  Nat.mod_lt _ (by norm_num)

theorem testBit_one_shiftLeft (t n : Nat) : (1 <<< t).testBit n = decide (t = n) := by
  rw [Nat.one_shiftLeft, Nat.testBit_two_pow]

/-! ### The byte table and the flip -/

set_option maxRecDepth 100000 in
theorem reversed_spec : ∀ y < 256, ∀ j < 8,
    (reversed.getD y 0).testBit j = y.testBit (7 - j) := by
  decide

set_option maxRecDepth 100000 in
theorem reversed_lt : ∀ y < 256, reversed.getD y 0 < 256 := by
  decide

theorem testBit_reversed (y : Nat) (hy : y < 256) (m : Nat) :
    (reversed.getD y 0).testBit m = (decide (m < 8) && y.testBit (7 - m)) := by
  by_cases hm : m < 8
  · rw [reversed_spec y hy m hm]; simp [hm]
  · have h1 : reversed.getD y 0 < 2 ^ m :=
      lt_of_lt_of_le (reversed_lt y hy) (by
        calc 256 = 2 ^ 8 := by norm_num
          _ ≤ 2 ^ m := Nat.pow_le_pow_right (by norm_num) (by omega))
    rw [Nat.testBit_lt_two_pow h1]; simp [hm]

theorem and_255_lt (x : Nat) : x &&& 0xff < 256 := by
  have h : (0xff : Nat) = 2 ^ 8 - 1 := by norm_num
  rw [h, Nat.and_pow_two_sub_one_eq_mod]
  exact Nat.mod_lt _ (by norm_num)

theorem testBit_and_255 (x m : Nat) : (x &&& 0xff).testBit m = (decide (m < 8) && x.testBit m) := by
  have h : (0xff : Nat) = 2 ^ 8 - 1 := by norm_num
  rw [h, Nat.and_pow_two_sub_one_eq_mod, Nat.testBit_mod_two_pow]

theorem testBit_reverse (x : Nat) (hx : x < 2 ^ 32) (j : Nat) :
    (reverse x).testBit j = (decide (j < 32) && x.testBit (31 - j)) := by
  have h24 : x >>> 24 < 256 := by
    rw [Nat.shiftRight_eq_div_pow]
    apply Nat.div_lt_of_lt_mul
    calc x < 2 ^ 32 := hx
      _ = 2 ^ 24 * 256 := by norm_num
  simp only [reverse, Nat.testBit_or, Nat.testBit_shiftLeft,
    testBit_reversed _ (and_255_lt _), testBit_reversed _ h24, testBit_and_255,
    Nat.testBit_shiftRight]
  rcases Nat.lt_or_ge j 8 with h | h
  · have e : 24 + (7 - j) = 31 - j := by omega
    simp [h, e, show ¬ 24 ≤ j by omega, show ¬ 16 ≤ j by omega, show ¬ 8 ≤ j by omega,
      show j < 32 by omega]
  rcases Nat.lt_or_ge j 16 with h2 | h2
  · have e : 16 + (7 - (j - 8)) = 31 - j := by omega
    simp [h, h2, e, show ¬ 24 ≤ j by omega, show ¬ 16 ≤ j by omega, show ¬ j < 8 by omega,
      show j < 32 by omega, show j - 8 < 8 by omega, show 7 - (j - 8) < 8 by omega]
  rcases Nat.lt_or_ge j 24 with h3 | h3
  · have e : 8 + (7 - (j - 16)) = 31 - j := by omega
    simp [h, h2, h3, e, show ¬ 24 ≤ j by omega, show ¬ j < 8 by omega,
      show j < 32 by omega, show j - 16 < 8 by omega, show ¬ j - 8 < 8 by omega,
      show 7 - (j - 16) < 8 by omega]
  rcases Nat.lt_or_ge j 32 with h4 | h4
  · have e : 7 - (j - 24) = 31 - j := by omega
    simp [h, h2, h3, h4, e, show ¬ j < 8 by omega,
      show j - 24 < 8 by omega, show ¬ j - 8 < 8 by omega, show ¬ j - 16 < 8 by omega,
      show 31 - j < 8 by omega]
  · simp [h, h2, h3, show ¬ j < 32 by omega, show ¬ j < 8 by omega,
      show ¬ j - 24 < 8 by omega, show ¬ j - 8 < 8 by omega, show ¬ j - 16 < 8 by omega]

theorem testBit_flip (b j : Nat) :
    (flip b).testBit j = (decide (j < 30) && b.testBit (29 - j)) := by
  rw [flip, testBit_reverse _ (shl32_lt _ _), testBit_shl32]
  by_cases h : j < 30
  · have e : 31 - j - 2 = 29 - j := by omega
    simp [h, e, show j < 32 by omega, show 31 - j < 32 by omega, show 2 ≤ 31 - j by omega]
  · by_cases h2 : j < 32
    · simp [h, h2, show ¬ 2 ≤ 31 - j by omega]
    · simp [h, h2]

theorem flip_lt (b : Nat) : flip b < 2 ^ 30 := by
  apply Nat.lt_pow_two_of_testBit
  intro i hi
  simp [testBit_flip, show ¬ i < 30 by omega]

theorem flip_flip (b : Nat) (hb : b < 2 ^ 30) : flip (flip b) = b := by
  apply Nat.eq_of_testBit_eq
  intro j
  rw [testBit_flip, testBit_flip]
  by_cases h : j < 30
  · have e : 29 - (29 - j) = j := by omega
    simp [h, e, show 29 - j < 30 by omega]
  · have : b.testBit j = false :=
      Nat.testBit_lt_two_pow (lt_of_lt_of_le hb (Nat.pow_le_pow_right (by norm_num) (by omega)))
    simp [h, this]

/-! ### Lowest set bit and the set-bit loop -/

theorem tzcnt_aux_spec : ∀ (f x : Nat), x ≠ 0 → x < 2 ^ f →
    x.testBit (tzcnt_aux f x) = true ∧ (∀ j < tzcnt_aux f x, x.testBit j = false) ∧
      tzcnt_aux f x < f := by
  intro f
  induction f with
  | zero => intro x h0 hx; simp at hx; exact absurd hx h0
  | succ f ih =>
    intro x h0 hx
    by_cases hodd : x % 2 = 1
    · simp [tzcnt_aux, hodd, Nat.testBit_zero]
    · have h2 : x / 2 ≠ 0 := by omega
      have h3 : x / 2 < 2 ^ f := by
        rw [Nat.pow_succ] at hx; omega
      obtain ⟨a, b, c⟩ := ih (x / 2) h2 h3
      simp only [tzcnt_aux, hodd, if_false]
      refine ⟨by rw [Nat.testBit_succ]; exact a, ?_, by omega⟩
      intro j hj
      cases j with
      | zero => simp [Nat.testBit_zero, hodd]
      | succ j => rw [Nat.testBit_succ]; exact b j (by omega)

theorem testBit_blsr : ∀ (f x : Nat), x ≠ 0 → x < 2 ^ f → ∀ j,
    (x &&& (x - 1)).testBit j = (x.testBit j && decide (j ≠ tzcnt_aux f x)) := by
  intro f
  induction f with
  | zero => intro x h0 hx; simp at hx; exact absurd hx h0
  | succ f ih =>
    intro x h0 hx j
    by_cases hodd : x % 2 = 1
    · cases j with
      | zero =>
        have : (x - 1) % 2 = 0 := by omega
        simp [tzcnt_aux, hodd, Nat.testBit_zero, Nat.testBit_and, this]
      | succ j =>
        have : (x - 1) / 2 = x / 2 := by omega
        rw [Nat.testBit_and, Nat.testBit_succ, Nat.testBit_succ, this]
        simp [tzcnt_aux, hodd]
    · have h2 : x / 2 ≠ 0 := by omega
      have h3 : x / 2 < 2 ^ f := by
        rw [Nat.pow_succ] at hx; omega
      cases j with
      | zero => simp [tzcnt_aux, hodd, Nat.testBit_zero, Nat.testBit_and]
      | succ j =>
        have e : (x - 1) / 2 = x / 2 - 1 := by omega
        have := ih (x / 2) h2 h3 j
        rw [Nat.testBit_and] at this
        rw [Nat.testBit_and, Nat.testBit_succ, Nat.testBit_succ, e, this]
        simp [tzcnt_aux, hodd]

theorem mem_bit_loop_aux : ∀ (fuel x lo : Nat), x < 2 ^ 32 →
    (∀ j < lo, x.testBit j = false) → 32 ≤ fuel + lo →
    (∀ t, t ∈ bit_loop fuel x ↔ x.testBit t = true) ∧ (bit_loop fuel x).Nodup := by
  intro fuel
  induction fuel with
  | zero =>
    intro x lo hx hlo hf
    refine ⟨fun t => ?_, by simp [bit_loop]⟩
    simp only [bit_loop, List.not_mem_nil, false_iff, Bool.not_eq_true]
    by_cases ht : t < lo
    · exact hlo t ht
    · exact Nat.testBit_lt_two_pow
        (lt_of_lt_of_le hx (Nat.pow_le_pow_right (by norm_num) (by omega)))
  | succ fuel ih =>
    intro x lo hx hlo hf
    by_cases h0 : x = 0
    · subst h0; simp [bit_loop]
    · obtain ⟨a, b, c⟩ := tzcnt_aux_spec 32 x h0 hx
      have hb := testBit_blsr 32 x h0 hx
      have hge : lo ≤ tzcnt_aux 32 x := by
        by_contra hcon
        have := hlo _ (not_le.mp hcon)
        rw [a] at this; exact absurd this (by simp)
      have hx2 : x &&& (x - 1) < 2 ^ 32 := lt_of_le_of_lt Nat.and_le_left hx
      have hlo2 : ∀ j < tzcnt_aux 32 x + 1, (x &&& (x - 1)).testBit j = false := by
        intro j hj
        rw [hb]
        by_cases e : j = tzcnt_aux 32 x
        · simp [e]
        · rw [b j (by omega)]; simp
      obtain ⟨m, n⟩ := ih (x &&& (x - 1)) (tzcnt_aux 32 x + 1) hx2 hlo2 (by omega)
      simp only [bit_loop, h0, if_false, tzcnt_u32, List.mem_cons, List.nodup_cons]
      refine ⟨fun t => ?_, ?_, n⟩
      · rw [m, hb]
        by_cases e : t = tzcnt_aux 32 x
        · simp [e, a]
        · simp [e]
      · rw [m, hb]; simp

theorem mem_bit_loop (x : Nat) (hx : x < 2 ^ 32) (t : Nat) :
    t ∈ bit_loop 32 x ↔ x.testBit t = true :=
  (mem_bit_loop_aux 32 x 0 hx (fun _ h => absurd h (Nat.not_lt_zero _)) (by norm_num)).1 t

theorem nodup_bit_loop (x : Nat) (hx : x < 2 ^ 32) : (bit_loop 32 x).Nodup :=
  (mem_bit_loop_aux 32 x 0 hx (fun _ h => absurd h (Nat.not_lt_zero _)) (by norm_num)).2

/-! ### Occupancy masks -/

theorem and_eq_zero_iff_testBit (a b : Nat) :
    a &&& b = 0 ↔ ∀ n, a.testBit n = true → b.testBit n = true → False := by
  constructor
  · intro h n ha hb
    have : (a &&& b).testBit n = true := by rw [Nat.testBit_and, ha, hb]; rfl
    rw [h] at this; simp at this
  · intro h
    apply Nat.eq_of_testBit_eq
    intro n
    rw [Nat.testBit_and, Nat.zero_testBit]
    cases ha : a.testBit n <;> cases hb : b.testBit n <;> simp
    exact h n ha hb

theorem and_one_shiftLeft_ne_zero (x t : Nat) : x &&& 1 <<< t ≠ 0 ↔ x.testBit t = true := by
  rw [Ne, and_eq_zero_iff_testBit]
  constructor
  · intro h
    by_contra hc
    apply h
    intro n hn ht
    rw [testBit_one_shiftLeft] at ht
    simp at ht; subst ht; exact hc hn
  · intro h hc
    exact hc t h (by simp [testBit_one_shiftLeft])

theorem finRange_six : List.finRange 6 = [0, 1, 2, 3, 4, 5] := by rfl

theorem testBit_accumulate_or (a : Fin 6 → Nat) (n : Nat) :
    (accumulate_or a).testBit n = true ↔ ∃ i, (a i).testBit n = true := by
  simp only [accumulate_or, finRange_six, List.foldl, Nat.testBit_or, Nat.zero_testBit,
    Bool.or_eq_true, Fin.exists_fin_succ, Fin.exists_fin_two]
  simp
  tauto

theorem accumulate_or_lt (a : Fin 6 → Nat) (k : Nat) (h : ∀ i, a i < 2 ^ k) :
    accumulate_or a < 2 ^ k := by
  apply Nat.lt_pow_two_of_testBit
  intro n hn
  by_contra hc
  rw [Bool.not_eq_false, testBit_accumulate_or] at hc
  obtain ⟨i, hi⟩ := hc
  have := Nat.testBit_lt_two_pow (lt_of_lt_of_le (h i) (Nat.pow_le_pow_right (by norm_num) hn))
  rw [this] at hi; exact absurd hi (by simp)

set_option maxRecDepth 100000 in
theorem control_masks_lt : ∀ s < 30, control_masks.getD s 0 < 2 ^ 30 := by
  decide

theorem control_lt (k : piece_type) (s : Nat) : control k s < 2 ^ 30 := by
  unfold control
  by_cases h : s < 30
  · exact lt_of_le_of_lt Nat.and_le_right (control_masks_lt s h)
  · have : control_masks.getD s 0 = 0 := by
      rw [List.getD_eq_default]
      simp [control_masks]; omega
    rw [this]; simp


theorem lt32_of_lt30 {x : Nat} (h : x < 2 ^ 30) : x < 2 ^ 32 :=
  lt_trans h (by norm_num)

theorem lt_of_testBit {x n k : Nat} (hx : x < 2 ^ k) (h : x.testBit n = true) : n < k := by
  by_contra hc
  have := Nat.testBit_lt_two_pow (lt_of_lt_of_le hx (Nat.pow_le_pow_right (by norm_num) (not_lt.mp hc)))
  rw [this] at h; exact absurd h (by simp)

theorem testBit_board_bits (n : Nat) : board_bits.testBit n = decide (n < 30) := by
  have h : board_bits = 2 ^ 30 - 1 := by norm_num [board_bits]
  rw [h, Nat.testBit_two_pow_sub_one]

/-- Bit `n` of `~accumulate(a)`: inside the word and set in no entry of `a`. -/
theorem testBit_vacant (a : Fin 6 → Nat) (ha : ∀ i, a i < 2 ^ 32) (n : Nat) :
    (not32 (accumulate_or a)).testBit n = true ↔ n < 32 ∧ ∀ i, (a i).testBit n = false := by
  rw [testBit_not32]
  by_cases h : (accumulate_or a).testBit n = true
  · obtain ⟨i, hi⟩ := (testBit_accumulate_or a n).mp h
    have hn : n < 32 := lt_of_testBit (ha i) hi
    simp only [h, hn, decide_True, Bool.xor_self, Bool.false_eq_true, true_and, false_iff,
      not_forall]
    exact ⟨i, by simp [hi]⟩
  · have h2 : ∀ i, (a i).testBit n = false := by
      intro i
      by_contra hc
      exact h ((testBit_accumulate_or a n).mpr ⟨i, by simpa using hc⟩)
    simp only [Bool.not_eq_true] at h
    simp [h, h2]

theorem mem_move_actions (s : state) (hs : ∀ i, s.pieces_on_board i < 2 ^ 32) (a : action) :
    a ∈ s.move_actions ↔ ∃ (i : Fin 6) (sq t : Nat), (s.pieces_on_board i).testBit sq = true ∧
      (control i sq).testBit t = true ∧ (∀ j, (s.pieces_on_board j).testBit t = false) ∧
      a = ⟨sq, -1, t⟩ := by
  have hc : ∀ i sq, control i sq &&& not32 (accumulate_or s.pieces_on_board) < 2 ^ 32 :=
    fun i sq => lt_of_le_of_lt Nat.and_le_left (lt32_of_lt30 (control_lt i sq))
  simp only [state.move_actions, List.mem_flatMap, List.mem_map, List.mem_finRange, true_and]
  constructor
  · rintro ⟨i, sq, hsq, t, ht, rfl⟩
    rw [mem_bit_loop _ (hs i)] at hsq
    rw [mem_bit_loop _ (hc i sq), Nat.testBit_and, Bool.and_eq_true, testBit_vacant _ hs] at ht
    exact ⟨i, sq, t, hsq, ht.1, ht.2.2, rfl⟩
  · rintro ⟨i, sq, t, hsq, hct, hv, rfl⟩
    refine ⟨i, sq, (mem_bit_loop _ (hs i) sq).mpr hsq, t, ?_, rfl⟩
    rw [mem_bit_loop _ (hc i sq), Nat.testBit_and, Bool.and_eq_true, testBit_vacant _ hs]
    exact ⟨hct, lt_trans (lt_of_testBit (control_lt i sq) hct) (by norm_num), hv⟩

/-- Bit `t` of the drop mask `board_bits & vacant_bits & enemy_vacant_bits`. -/
theorem testBit_drop_mask (s : state) (hs : ∀ i, s.pieces_on_board i < 2 ^ 32)
    (he : ∀ i, s.enemy_pieces_on_board i < 2 ^ 32) (t : Nat) :
    (board_bits &&& not32 (accumulate_or s.pieces_on_board) &&&
      not32 (accumulate_or s.enemy_pieces_on_board)).testBit t = true ↔
    t < 30 ∧ (∀ i, (s.pieces_on_board i).testBit t = false) ∧
      (∀ i, (s.enemy_pieces_on_board i).testBit t = false) := by
  rw [Nat.testBit_and, Nat.testBit_and, Bool.and_eq_true, Bool.and_eq_true, testBit_vacant _ hs,
    testBit_vacant _ he, testBit_board_bits, decide_eq_true_eq]
  constructor
  · rintro ⟨⟨h1, _, h2⟩, _, h3⟩; exact ⟨h1, h2, h3⟩
  · rintro ⟨h1, h2, h3⟩; exact ⟨⟨h1, by omega, h2⟩, by omega, h3⟩

theorem drop_mask_lt (x y : Nat) : board_bits &&& x &&& y < 2 ^ 32 := by
  have h : board_bits &&& x &&& y ≤ board_bits :=
    le_trans Nat.and_le_left Nat.and_le_left
  exact lt_of_le_of_lt h (by norm_num [board_bits])

theorem mem_other_drop_actions (s : state) (hs : ∀ i, s.pieces_on_board i < 2 ^ 32)
    (he : ∀ i, s.enemy_pieces_on_board i < 2 ^ 32) (a : action) :
    a ∈ s.other_drop_actions ↔ ∃ (k : Fin 4) (t : Nat), (k = 1 ∨ k = 2) ∧
      s.piece_counts_in_hand k ≠ 0 ∧ t < 30 ∧ (∀ i, (s.pieces_on_board i).testBit t = false) ∧
      (∀ i, (s.enemy_pieces_on_board i).testBit t = false) ∧ a = ⟨-1, (k.val : Int), t⟩ := by
  simp only [state.other_drop_actions, List.mem_flatMap, List.mem_cons, List.mem_singleton,
    List.not_mem_nil, or_false]
  constructor
  · rintro ⟨k, hk, ha⟩
    by_cases hh : s.piece_counts_in_hand k ≠ 0
    · rw [if_pos hh, List.mem_map] at ha
      obtain ⟨t, ht, rfl⟩ := ha
      rw [mem_bit_loop _ (drop_mask_lt _ _), testBit_drop_mask s hs he] at ht
      exact ⟨k, t, hk, hh, ht.1, ht.2.1, ht.2.2, rfl⟩
    · rw [if_neg hh] at ha; exact absurd ha (List.not_mem_nil _)
  · rintro ⟨k, t, hk, hh, h1, h2, h3, rfl⟩
    refine ⟨k, hk, ?_⟩
    rw [if_pos hh, List.mem_map]
    refine ⟨t, ?_, rfl⟩
    rw [mem_bit_loop _ (drop_mask_lt _ _), testBit_drop_mask s hs he]
    exact ⟨h1, h2, h3⟩


/-! ### The chick drop mask -/

theorem testBit_chick_allowed_raw (s : state) (t : Nat) (ht : t < 30) :
    s.chick_allowed_bits.testBit t = true ↔
      (5 ≤ t ∧ (s.enemy_pieces_on_board piece_type.lion).testBit (t - 5) = false) ∧
      (∀ i ∈ [5, 10, 15, 20, 25],
        (i ≤ t → (s.pieces_on_board piece_type.chick).testBit (t - i) = false) ∧
        (s.pieces_on_board piece_type.chick).testBit (i + t) = false) := by
  have h5 : (0b00000000000000000000000000011111 : Nat) = 2 ^ 5 - 1 := by norm_num
  have h32 : t < 32 := by omega
  simp only [state.chick_allowed_bits, List.foldl, testBit_not32, Nat.testBit_or, testBit_shl32,
    Nat.testBit_shiftRight, h5, Nat.testBit_two_pow_sub_one, Nat.zero_testBit, h32, decide_True,
    Bool.true_and, Bool.false_or, Bool.xor_true, Bool.not_eq_true', Bool.or_eq_false_iff,
    Bool.and_eq_false_imp, decide_eq_true_eq, decide_eq_false_iff_not, not_lt,
    List.mem_cons, List.mem_singleton, List.not_mem_nil, or_false, forall_eq_or_imp, forall_eq]
  tauto

theorem testBit_chick_allowed (s : state) (hc : s.pieces_on_board piece_type.chick < 2 ^ 30)
    (t : Nat) (ht : t < 30) :
    s.chick_allowed_bits.testBit t = true ↔
      5 ≤ t ∧ (s.enemy_pieces_on_board piece_type.lion).testBit (t - 5) = false ∧
      (∀ sq, sq ≠ t → sq % 5 = t % 5 → (s.pieces_on_board piece_type.chick).testBit sq = false) := by
  rw [testBit_chick_allowed_raw s t ht]
  constructor
  · rintro ⟨⟨h1, h2⟩, h3⟩
    refine ⟨h1, h2, fun sq hne hmod => ?_⟩
    by_contra hcon
    have hb : (s.pieces_on_board piece_type.chick).testBit sq = true := by simpa using hcon
    have hsq : sq < 30 := lt_of_testBit hc hb
    simp only [List.mem_cons, List.mem_singleton, List.not_mem_nil, or_false, forall_eq_or_imp,
      forall_eq] at h3
    obtain ⟨⟨a1, b1⟩, ⟨a2, b2⟩, ⟨a3, b3⟩, ⟨a4, b4⟩, ⟨a5, b5⟩⟩ := h3
    rcases Nat.lt_or_gt_of_ne hne with hlt | hgt
    · obtain ⟨d, hd⟩ : ∃ d, t = sq + d := ⟨t - sq, by omega⟩
      have hd5 : d = 5 ∨ d = 10 ∨ d = 15 ∨ d = 20 ∨ d = 25 := by omega
      have e : sq = t - d := by omega
      have hle : d ≤ t := by omega
      rw [e] at hb
      rcases hd5 with h | h | h | h | h <;> rw [h] at hb hle
      · rw [a1 hle] at hb; exact Bool.false_ne_true hb
      · rw [a2 hle] at hb; exact Bool.false_ne_true hb
      · rw [a3 hle] at hb; exact Bool.false_ne_true hb
      · rw [a4 hle] at hb; exact Bool.false_ne_true hb
      · rw [a5 hle] at hb; exact Bool.false_ne_true hb
    · obtain ⟨d, hd⟩ : ∃ d, sq = d + t := ⟨sq - t, by omega⟩
      have hd5 : d = 5 ∨ d = 10 ∨ d = 15 ∨ d = 20 ∨ d = 25 := by omega
      rw [hd] at hb
      rcases hd5 with h | h | h | h | h <;> rw [h] at hb
      · rw [b1] at hb; exact Bool.false_ne_true hb
      · rw [b2] at hb; exact Bool.false_ne_true hb
      · rw [b3] at hb; exact Bool.false_ne_true hb
      · rw [b4] at hb; exact Bool.false_ne_true hb
      · rw [b5] at hb; exact Bool.false_ne_true hb
  · rintro ⟨h1, h2, h3⟩
    refine ⟨⟨h1, h2⟩, fun i hi => ?_⟩
    simp only [List.mem_cons, List.mem_singleton, List.not_mem_nil, or_false] at hi
    have hi5 : i % 5 = 0 ∧ 0 < i := by
      rcases hi with h | h | h | h | h <;> rw [h] <;> decide
    have e1 : i ≤ t → t - i ≠ t ∧ (t - i) % 5 = t % 5 := by
      intro hle
      obtain ⟨d, hd⟩ : ∃ d, t = d + i := ⟨t - i, by omega⟩
      have : t - i = d := by omega
      rw [this]; omega
    have e2 : i + t ≠ t ∧ (i + t) % 5 = t % 5 := by omega
    exact ⟨fun hle => h3 (t - i) (e1 hle).1 (e1 hle).2, h3 (i + t) e2.1 e2.2⟩


theorem mem_chick_drop_actions (s : state) (hs : ∀ i, s.pieces_on_board i < 2 ^ 32)
    (he : ∀ i, s.enemy_pieces_on_board i < 2 ^ 32) (a : action) :
    a ∈ s.chick_drop_actions ↔ s.piece_counts_in_hand 0 ≠ 0 ∧ ∃ t : Nat, t < 30 ∧
      (∀ i, (s.pieces_on_board i).testBit t = false) ∧
      (∀ i, (s.enemy_pieces_on_board i).testBit t = false) ∧
      s.chick_allowed_bits.testBit t = true ∧ a = ⟨-1, 0, t⟩ := by
  have hlt : ∀ x y z, board_bits &&& x &&& y &&& z < 2 ^ 32 := fun x y z =>
    lt_of_le_of_lt Nat.and_le_left (drop_mask_lt x y)
  unfold state.chick_drop_actions
  by_cases hh : s.piece_counts_in_hand 0 ≠ 0
  · rw [if_pos hh, List.mem_map]
    constructor
    · rintro ⟨t, ht, rfl⟩
      rw [mem_bit_loop _ (hlt _ _ _), Nat.testBit_and, Bool.and_eq_true,
        testBit_drop_mask s hs he] at ht
      exact ⟨hh, t, ht.1.1, ht.1.2.1, ht.1.2.2, ht.2, rfl⟩
    · rintro ⟨_, t, h1, h2, h3, h4, rfl⟩
      refine ⟨t, ?_, rfl⟩
      rw [mem_bit_loop _ (hlt _ _ _), Nat.testBit_and, Bool.and_eq_true,
        testBit_drop_mask s hs he]
      exact ⟨⟨h1, h2, h3⟩, h4⟩
  · simp only [if_neg hh, List.not_mem_nil, false_iff]
    exact fun h => hh h.1

/-! ### The loops of `next` -/

theorem demoted_lt (k : Fin 6) : (demoted k).val < 4 := by
  revert k; decide

theorem capture_loop_miss (tb : Nat) (e : Fin 6 → Nat) (h : Fin 4 → Int)
    (hm : ∀ j, e j &&& tb = 0) (l : List (Fin 6)) :
    capture_loop tb l e h = some (e, h) := by
  induction l with
  | nil => rfl
  | cons i rest ih => simp [capture_loop, hm i, ih]

theorem capture_loop_hit (tb : Nat) (e : Fin 6 → Nat) (h : Fin 4 → Int) (k : Fin 6)
    (hk : e k &&& tb ≠ 0) (hu : ∀ j, j ≠ k → e j &&& tb = 0) (l : List (Fin 6)) (hl : k ∈ l) :
    capture_loop tb l e h =
      some (Function.update e k (e k &&& not32 tb),
            Function.update h ⟨(demoted k).val, demoted_lt k⟩
              (h ⟨(demoted k).val, demoted_lt k⟩ + 1)) := by
  induction l with
  | nil => exact absurd hl (List.not_mem_nil _)
  | cons i rest ih =>
    by_cases hik : i = k
    · subst hik
      simp [capture_loop, hk, demoted_lt]
    · have hr : k ∈ rest := by
        rcases List.mem_cons.mp hl with h1 | h1
        · exact absurd h1.symm hik
        · exact h1
      simp [capture_loop, hu i hik, ih hr]

theorem move_loop_hit (fb tb : Nat) (o : Fin 6 → Nat) (k : Fin 6)
    (hk : o k &&& fb ≠ 0) (hu : ∀ j, j ≠ k → o j &&& fb = 0) (l : List (Fin 6)) (hl : k ∈ l) :
    move_loop fb tb l o =
      Function.update (Function.update o k (o k &&& not32 fb))
        (if tb &&& enemy_side_bits ≠ 0 then promoted k else k)
        (Function.update o k (o k &&& not32 fb)
          (if tb &&& enemy_side_bits ≠ 0 then promoted k else k) ||| tb) := by
  induction l with
  | nil => exact absurd hl (List.not_mem_nil _)
  | cons i rest ih =>
    by_cases hik : i = k
    · subst hik
      simp [move_loop, hk]
    · have hr : k ∈ rest := by
        rcases List.mem_cons.mp hl with h1 | h1
        · exact absurd h1.symm hik
        · exact h1
      simp [move_loop, hu i hik, ih hr]


theorem move_loop_eq (fb tb : Nat) (o : Fin 6 → Nat) (k : Fin 6)
    (hk : o k &&& fb ≠ 0) (hu : ∀ j, j ≠ k → o j &&& fb = 0) (l : List (Fin 6)) (hl : k ∈ l) :
    move_loop fb tb l o = moved_board o k fb tb :=
  move_loop_hit fb tb o k hk hu l hl

theorem testBit_clear (x sq n : Nat) (hx : x < 2 ^ 32) :
    (x &&& not32 (1 <<< sq)).testBit n = (x.testBit n && !decide (n = sq)) := by
  rw [Nat.testBit_and, testBit_not32, testBit_one_shiftLeft]
  by_cases h : x.testBit n = true
  · have hn : n < 32 := lt_of_testBit hx h
    by_cases e : sq = n
    · simp [e, hn]
    · have e2 : ¬ n = sq := fun h => e h.symm
      simp [e, e2, hn]
  · simp only [Bool.not_eq_true] at h
    simp [h]

theorem testBit_set (x t n : Nat) :
    (x ||| 1 <<< t).testBit n = (x.testBit n || decide (n = t)) := by
  rw [Nat.testBit_or, testBit_one_shiftLeft]
  by_cases e : t = n
  · simp [e]
  · have e2 : ¬ n = t := fun h => e h.symm
    simp [e, e2]

theorem well_formed_iff (s : state) :
    s.well_formed ↔ board_ok s.pieces_on_board s.enemy_pieces_on_board ∧
      (∀ k, 0 ≤ s.piece_counts_in_hand k) ∧ (∀ k, 0 ≤ s.enemy_piece_counts_in_hand k) := by
  unfold state.well_formed board_ok
  simp only [and_eq_zero_iff_testBit]
  constructor
  · rintro ⟨h1, h2, h3, h4, h5, h6, h7⟩
    refine ⟨⟨h4, h5, ?_, ?_, h3⟩, h6, h7⟩
    · intro i j n hi hj
      by_contra hne
      exact h1 i j hne n hi hj
    · intro i j n hi hj
      by_contra hne
      exact h2 i j hne n hi hj
  · rintro ⟨⟨h4, h5, h1, h2, h3⟩, h6, h7⟩
    exact ⟨fun i j hne n hi hj => hne (h1 i j n hi hj),
      fun i j hne n hi hj => hne (h2 i j n hi hj), h3, h4, h5, h6, h7⟩

theorem testBit_flip_true (b n : Nat) :
    (flip b).testBit n = true ↔ n < 30 ∧ b.testBit (29 - n) = true := by
  rw [testBit_flip]; simp

theorem board_ok_flip (o e : Fin 6 → Nat) (h : board_ok o e) :
    board_ok (reverse_all e) (reverse_all o) := by
  obtain ⟨_, _, h1, h2, h3⟩ := h
  refine ⟨fun i => flip_lt _, fun i => flip_lt _, ?_, ?_, ?_⟩
  · intro i j n hi hj
    rw [reverse_all, testBit_flip_true] at hi hj
    exact h2 i j _ hi.2 hj.2
  · intro i j n hi hj
    rw [reverse_all, testBit_flip_true] at hi hj
    exact h1 i j _ hi.2 hj.2
  · intro i j n hi hj
    rw [reverse_all, testBit_flip_true] at hi hj
    exact h3 j i _ hj.2 hi.2

/-- Bits of the own bitsets after a move of kind `i` from `sq` to `t`. -/
theorem testBit_moved_board (o : Fin 6 → Nat) (ho : ∀ m, o m < 2 ^ 30) (i : Fin 6)
    (sq t : Nat) (m : Fin 6) (n : Nat) :
    (moved_board o i (1 <<< sq) (1 <<< t) m).testBit n = true ↔
      (m = landing_kind i (1 <<< t) ∧ n = t) ∨
        ((o m).testBit n = true ∧ ¬ (m = i ∧ n = sq)) := by
  unfold moved_board
  simp only [Function.update_apply]
  by_cases hm : m = landing_kind i (1 <<< t)
  · by_cases hi : landing_kind i (1 <<< t) = i
    · simp only [hm, hi, if_true, testBit_set, testBit_clear _ _ _ (lt32_of_lt30 (ho i)),
        Bool.or_eq_true, Bool.and_eq_true, Bool.not_eq_true', decide_eq_true_eq,
        decide_eq_false_iff_not, true_and]
      tauto
    · simp only [hm, hi, if_true, if_false, testBit_set, Bool.or_eq_true, decide_eq_true_eq,
        true_and, false_and, not_false_eq_true, and_true]
      tauto
  · by_cases hi : m = i
    · subst hi
      simp only [hm, if_true, if_false, testBit_clear _ _ _ (lt32_of_lt30 (ho m)),
        Bool.and_eq_true, Bool.not_eq_true', decide_eq_false_iff_not, true_and, false_and,
        false_or]
    · simp [hm, hi]

theorem board_ok_step (o e o2 e2 : Fin 6 → Nat) (h : board_ok o e) (i d : Fin 6) (sq t : Nat)
    (ht : t < 30) (hv : ∀ j, (o j).testBit t = false)
    (ho2 : ∀ m n, (o2 m).testBit n = true ↔
      (m = d ∧ n = t) ∨ ((o m).testBit n = true ∧ ¬ (m = i ∧ n = sq)))
    (he2 : ∀ m n, (e2 m).testBit n = true ↔ (e m).testBit n = true ∧ n ≠ t) :
    board_ok o2 e2 := by
  obtain ⟨b1, b2, h1, h2, h3⟩ := h
  have hvt : ∀ j, ¬ (o j).testBit t = true := fun j hj => by
    rw [hv j] at hj; exact Bool.false_ne_true hj
  refine ⟨fun m => ?_, fun m => ?_, ?_, ?_, ?_⟩
  · apply Nat.lt_pow_two_of_testBit
    intro n hn
    by_contra hc
    rw [Bool.not_eq_false, ho2] at hc
    rcases hc with ⟨_, rfl⟩ | ⟨hc, _⟩
    · omega
    · exact absurd (lt_of_testBit (b1 m) hc) (by omega)
  · apply Nat.lt_pow_two_of_testBit
    intro n hn
    by_contra hc
    rw [Bool.not_eq_false, he2] at hc
    exact absurd (lt_of_testBit (b2 m) hc.1) (by omega)
  · intro a b n ha hb
    rw [ho2] at ha hb
    rcases ha with ⟨rfl, rfl⟩ | ⟨ha, _⟩ <;> rcases hb with ⟨rfl, hb2⟩ | ⟨hb, _⟩
    · rfl
    · exact absurd hb (hvt b)
    · subst hb2; exact absurd ha (hvt a)
    · exact h1 a b n ha hb
  · intro a b n ha hb
    rw [he2] at ha hb
    exact h2 a b n ha.1 hb.1
  · intro a b n ha hb
    rw [ho2] at ha
    rw [he2] at hb
    rcases ha with ⟨_, rfl⟩ | ⟨ha, _⟩
    · exact hb.2 rfl
    · exact h3 a b n ha hb.1


/-! ### Closed forms of `next` -/

theorem next_of_capture (s : state) (sq t : Nat) (hsq : sq < 32) (ht : t < 32)
    (e2 : Fin 6 → Nat) (h2 : Fin 4 → Int)
    (hc : capture_loop (1 <<< t) (List.finRange 6) s.enemy_pieces_on_board
      s.piece_counts_in_hand = some (e2, h2)) :
    s.next ⟨sq, -1, t⟩ = some ⟨reverse_all e2, s.enemy_piece_counts_in_hand,
      reverse_all (move_loop (1 <<< sq) (1 <<< t) (List.finRange 6) s.pieces_on_board), h2⟩ := by
  have h1 : (0 : Int) ≤ (sq : Int) := Int.natCast_nonneg sq
  have h2 : (sq : Int) < 32 := by exact_mod_cast hsq
  have h3 : (0 : Int) ≤ (t : Int) := Int.natCast_nonneg t
  have h4 : (t : Int) < 32 := by exact_mod_cast ht
  simp only [state.next, h1, h2, h3, h4, and_self, if_true, Int.toNat_ofNat, hc]

theorem next_move_capture (s : state) (hok : board_ok s.pieces_on_board s.enemy_pieces_on_board)
    (i k : Fin 6) (sq t : Nat) (hsq : (s.pieces_on_board i).testBit sq = true) (ht : t < 30)
    (hk : (s.enemy_pieces_on_board k).testBit t = true) :
    s.next ⟨sq, -1, t⟩ = some
      ⟨reverse_all (Function.update s.enemy_pieces_on_board k
          (s.enemy_pieces_on_board k &&& not32 (1 <<< t))),
        s.enemy_piece_counts_in_hand,
        reverse_all (moved_board s.pieces_on_board i (1 <<< sq) (1 <<< t)),
        Function.update s.piece_counts_in_hand ⟨(demoted k).val, demoted_lt k⟩
          (s.piece_counts_in_hand ⟨(demoted k).val, demoted_lt k⟩ + 1)⟩ := by
  obtain ⟨b1, b2, d1, d2, d3⟩ := hok
  have hsq32 : sq < 32 := lt_trans (lt_of_testBit (b1 i) hsq) (by norm_num)
  rw [next_of_capture s sq t hsq32 (by omega) _ _
    (capture_loop_hit (1 <<< t) _ _ k ((and_one_shiftLeft_ne_zero _ _).mpr hk) ?_ _
      (List.mem_finRange k)),
    move_loop_eq (1 <<< sq) (1 <<< t) _ i ((and_one_shiftLeft_ne_zero _ _).mpr hsq) ?_ _
      (List.mem_finRange i)]
  · intro j hj
    by_contra hc
    exact hj (d1 j i sq ((and_one_shiftLeft_ne_zero _ _).mp hc) hsq)
  · intro j hj
    by_contra hc
    exact hj (d2 j k t ((and_one_shiftLeft_ne_zero _ _).mp hc) hk)

theorem next_move_quiet (s : state) (hok : board_ok s.pieces_on_board s.enemy_pieces_on_board)
    (i : Fin 6) (sq t : Nat) (hsq : (s.pieces_on_board i).testBit sq = true) (ht : t < 30)
    (hq : ∀ k, (s.enemy_pieces_on_board k).testBit t = false) :
    s.next ⟨sq, -1, t⟩ = some
      ⟨reverse_all s.enemy_pieces_on_board, s.enemy_piece_counts_in_hand,
        reverse_all (moved_board s.pieces_on_board i (1 <<< sq) (1 <<< t)),
        s.piece_counts_in_hand⟩ := by
  obtain ⟨b1, b2, d1, d2, d3⟩ := hok
  have hsq32 : sq < 32 := lt_trans (lt_of_testBit (b1 i) hsq) (by norm_num)
  rw [next_of_capture s sq t hsq32 (by omega) _ _
    (capture_loop_miss (1 <<< t) _ _ ?_ _),
    move_loop_eq (1 <<< sq) (1 <<< t) _ i ((and_one_shiftLeft_ne_zero _ _).mpr hsq) ?_ _
      (List.mem_finRange i)]
  · intro j hj
    by_contra hc
    exact hj (d1 j i sq ((and_one_shiftLeft_ne_zero _ _).mp hc) hsq)
  · intro j
    by_contra hc
    have := (and_one_shiftLeft_ne_zero _ _).mp hc
    rw [hq j] at this; exact Bool.false_ne_true this

theorem next_drop (s : state) (k : Fin 4) (t : Nat) (ht : t < 32) :
    s.next ⟨-1, (k.val : Int), t⟩ = some
      ⟨reverse_all s.enemy_pieces_on_board, s.enemy_piece_counts_in_hand,
        reverse_all (Function.update s.pieces_on_board ⟨k.val, by omega⟩
          (s.pieces_on_board ⟨k.val, by omega⟩ ||| 1 <<< t)),
        Function.update s.piece_counts_in_hand k (s.piece_counts_in_hand k - 1)⟩ := by
  have h0 : ¬ (0 : Int) ≤ -1 := by decide
  have h1 : (0 : Int) ≤ (k.val : Int) := Int.natCast_nonneg _
  have h2 : ((k.val : Nat) : Int) < 4 := by exact_mod_cast k.isLt
  have h3 : (0 : Int) ≤ (t : Int) := Int.natCast_nonneg t
  have h4 : (t : Int) < 32 := by exact_mod_cast ht
  simp only [state.next, h0, h1, h2, h3, h4, and_self, if_false, dite_true, Int.toNat_ofNat,
    Fin.eta]


/-! ### Generated actions and well-formedness of successors -/

theorem mem_actions_iff (s : state) (a : action) :
    a ∈ s.actions ↔ a ∈ s.move_actions ∨ a ∈ s.chick_drop_actions ∨ a ∈ s.other_drop_actions := by
  simp only [state.actions, List.mem_append, or_assoc]

/-- Every generated action is a board move from an own square to a square free of
own pieces, or a drop of a held kind 0, 1 or 2 on an empty square. -/
theorem actions_cases (s : state) (hw : s.well_formed) (a : action) (ha : a ∈ s.actions) :
    (∃ (i : Fin 6) (sq t : Nat), (s.pieces_on_board i).testBit sq = true ∧
      (control i sq).testBit t = true ∧ (∀ j, (s.pieces_on_board j).testBit t = false) ∧
      sq < 30 ∧ t < 30 ∧ a = ⟨sq, -1, t⟩) ∨
    (∃ (k : Fin 4) (t : Nat), (k = 0 ∨ k = 1 ∨ k = 2) ∧ s.piece_counts_in_hand k ≠ 0 ∧ t < 30 ∧
      (∀ i, (s.pieces_on_board i).testBit t = false) ∧
      (∀ i, (s.enemy_pieces_on_board i).testBit t = false) ∧ a = ⟨-1, (k.val : Int), t⟩) := by
  obtain ⟨⟨b1, b2, _, _, _⟩, _, _⟩ := (well_formed_iff s).mp hw
  have hs : ∀ i, s.pieces_on_board i < 2 ^ 32 := fun i => lt32_of_lt30 (b1 i)
  have he : ∀ i, s.enemy_pieces_on_board i < 2 ^ 32 := fun i => lt32_of_lt30 (b2 i)
  rcases (mem_actions_iff s a).mp ha with h | h | h
  · obtain ⟨i, sq, t, h1, h2, h3, rfl⟩ := (mem_move_actions s hs a).mp h
    exact Or.inl ⟨i, sq, t, h1, h2, h3, lt_of_testBit (b1 i) h1,
      lt_of_testBit (control_lt i sq) h2, rfl⟩
  · obtain ⟨hh, t, h1, h2, h3, _, rfl⟩ := (mem_chick_drop_actions s hs he a).mp h
    exact Or.inr ⟨0, t, Or.inl rfl, hh, h1, h2, h3, rfl⟩
  · obtain ⟨k, t, hk, hh, h1, h2, h3, rfl⟩ := (mem_other_drop_actions s hs he a).mp h
    exact Or.inr ⟨k, t, Or.inr hk, hh, h1, h2, h3, rfl⟩

theorem testBit_update_clear (e : Fin 6 → Nat) (he : ∀ m, e m < 2 ^ 30)
    (hd : ∀ i j n, (e i).testBit n = true → (e j).testBit n = true → i = j)
    (k : Fin 6) (t : Nat) (hk : (e k).testBit t = true) (m : Fin 6) (n : Nat) :
    (Function.update e k (e k &&& not32 (1 <<< t)) m).testBit n = true ↔
      (e m).testBit n = true ∧ n ≠ t := by
  rw [Function.update_apply]
  by_cases hm : m = k
  · subst hm
    rw [if_pos rfl, testBit_clear _ _ _ (lt32_of_lt30 (he m))]
    simp
  · simp only [hm, if_false, iff_self_and]
    intro h hn
    subst hn
    exact hm (hd m k n h hk)

theorem testBit_update_set (o : Fin 6 → Nat) (k : Fin 6) (t : Nat) (m : Fin 6) (n : Nat) :
    (Function.update o k (o k ||| 1 <<< t) m).testBit n = true ↔
      (m = k ∧ n = t) ∨ (o m).testBit n = true := by
  rw [Function.update_apply]
  by_cases hm : m = k
  · subst hm
    rw [if_pos rfl, testBit_set, Bool.or_eq_true, decide_eq_true_eq]
    tauto
  · simp [hm]

/-- Well-formedness of the successor of a board move. -/
theorem well_formed_next_move (s : state) (hw : s.well_formed) (i : Fin 6) (sq t : Nat)
    (hsq : (s.pieces_on_board i).testBit sq = true) (ht : t < 30)
    (hv : ∀ j, (s.pieces_on_board j).testBit t = false) :
    ∃ q, s.next ⟨sq, -1, t⟩ = some q ∧ q.well_formed := by
  obtain ⟨hok, hh1, hh2⟩ := (well_formed_iff s).mp hw
  have hok2 := hok
  obtain ⟨b1, b2, d1, d2, d3⟩ := hok2
  have hmv := testBit_moved_board s.pieces_on_board b1 i sq t
  by_cases hq : ∀ k, (s.enemy_pieces_on_board k).testBit t = false
  · refine ⟨_, next_move_quiet s hok i sq t hsq ht hq, ?_⟩
    rw [well_formed_iff]
    refine ⟨board_ok_flip _ _ (board_ok_step _ _ _ _ hok i _ sq t ht hv hmv ?_), hh2, hh1⟩
    intro m n
    simp only [iff_self_and]
    intro h hn
    subst hn
    rw [hq m] at h; exact Bool.false_ne_true h
  · simp only [not_forall, Bool.not_eq_false] at hq
    obtain ⟨k, hk⟩ := hq
    refine ⟨_, next_move_capture s hok i k sq t hsq ht hk, ?_⟩
    rw [well_formed_iff]
    refine ⟨board_ok_flip _ _ (board_ok_step _ _ _ _ hok i _ sq t ht hv hmv
      (testBit_update_clear _ b2 d2 k t hk)), hh2, ?_⟩
    intro m
    simp only [Function.update_apply]
    split
    · have := hh1 ⟨(demoted k).val, demoted_lt k⟩; omega
    · exact hh1 m

/-- Well-formedness of the successor of a drop. -/
theorem well_formed_next_drop (s : state) (hw : s.well_formed) (k : Fin 4) (t : Nat)
    (hh : s.piece_counts_in_hand k ≠ 0) (ht : t < 30)
    (hv : ∀ j, (s.pieces_on_board j).testBit t = false)
    (hq : ∀ j, (s.enemy_pieces_on_board j).testBit t = false) :
    ∃ q, s.next ⟨-1, (k.val : Int), t⟩ = some q ∧ q.well_formed := by
  obtain ⟨hok, hh1, hh2⟩ := (well_formed_iff s).mp hw
  refine ⟨_, next_drop s k t (by omega), ?_⟩
  rw [well_formed_iff]
  refine ⟨board_ok_flip _ _ (board_ok_step _ _ _ _ hok 0 ⟨k.val, by omega⟩ t t ht hv ?_ ?_),
    hh2, ?_⟩
  · intro m n
    rw [testBit_update_set]
    constructor
    · rintro (h | h)
      · exact Or.inl h
      · refine Or.inr ⟨h, ?_⟩
        rintro ⟨_, rfl⟩
        rw [hv m] at h; exact Bool.false_ne_true h
    · rintro (h | h)
      · exact Or.inl h
      · exact Or.inr h.1
  · intro m n
    simp only [iff_self_and]
    intro h hn
    subst hn
    rw [hq m] at h; exact Bool.false_ne_true h
  · intro m
    simp only [Function.update_apply]
    split
    · have := hh1 k; omega
    · exact hh1 m


/-! ### Counting pieces -/

theorem popcnt_eq_sum (x : Nat) :
    popcnt_u32 x = ∑ n ∈ Finset.range 32, (x.testBit n).toNat := by
  have h : (List.range 32).toFinset = Finset.range 32 := by ext n; simp
  unfold popcnt_u32
  rw [← List.sum_toFinset _ (List.nodup_range 32), h]

theorem board_count_eq_card (a : Fin 6 → Nat) : board_count a = ((cells a).card : Int) := by
  have h1 : board_count a = ((∑ i : Fin 6, popcnt_u32 (a i) : Nat) : Int) := by
    unfold board_count
    rw [← List.sum_toFinset _ (List.nodup_finRange 6), List.toFinset_finRange]
    push_cast; rfl
  have h2 : (∑ i : Fin 6, popcnt_u32 (a i)) = (cells a).card := by
    unfold cells
    rw [Finset.card_filter, Finset.sum_product]
    apply Finset.sum_congr rfl
    intro i _
    rw [popcnt_eq_sum]
    apply Finset.sum_congr rfl
    intro n _
    cases (a i).testBit n <;> simp
  rw [h1, h2]

theorem board_count_eq_of_card (a b : Fin 6 → Nat) (h : (cells a).card = (cells b).card) :
    board_count a = board_count b := by
  rw [board_count_eq_card, board_count_eq_card, h]

theorem mem_cells (a : Fin 6 → Nat) (ha : ∀ m, a m < 2 ^ 30) (p : Fin 6 × Nat) :
    p ∈ cells a ↔ (a p.1).testBit p.2 = true := by
  unfold cells
  simp only [Finset.mem_filter, Finset.mem_product, Finset.mem_univ, Finset.mem_range, true_and,
    and_iff_right_iff_imp]
  intro h
  exact lt_trans (lt_of_testBit (ha p.1) h) (by norm_num)

theorem board_count_flip (a : Fin 6 → Nat) (ha : ∀ m, a m < 2 ^ 30) :
    board_count (reverse_all a) = board_count a := by
  apply board_count_eq_of_card
  have h : cells (reverse_all a) = (cells a).image fun p => (p.1, 29 - p.2) := by
    ext p
    rw [mem_cells (reverse_all a) (fun m => flip_lt _), reverse_all, testBit_flip_true,
      Finset.mem_image]
    constructor
    · rintro ⟨h1, h2⟩
      refine ⟨(p.1, 29 - p.2), (mem_cells a ha _).mpr h2, ?_⟩
      ext
      · rfl
      · simp; omega
    · rintro ⟨q, hq, rfl⟩
      rw [mem_cells a ha] at hq
      have := lt_of_testBit (ha q.1) hq
      have e : 29 - (29 - q.2) = q.2 := by omega
      simp only [e]
      exact ⟨by omega, hq⟩
  rw [h]
  apply Finset.card_image_of_injOn
  intro p hp q hq hpq
  have hp2 := lt_of_testBit (ha p.1) ((mem_cells a ha p).mp hp)
  have hq2 := lt_of_testBit (ha q.1) ((mem_cells a ha q).mp hq)
  simp only [Prod.mk.injEq] at hpq
  ext
  · exact congrArg Fin.val hpq.1
  · omega

/-- One cell leaves and one cell enters: the count is unchanged. -/
theorem board_count_step (o o2 : Fin 6 → Nat) (ho : ∀ m, o m < 2 ^ 30)
    (ho2 : ∀ m, o2 m < 2 ^ 30) (i d : Fin 6) (sq t : Nat)
    (hsq : (o i).testBit sq = true) (hv : ∀ j, (o j).testBit t = false)
    (hspec : ∀ m n, (o2 m).testBit n = true ↔
      (m = d ∧ n = t) ∨ ((o m).testBit n = true ∧ ¬ (m = i ∧ n = sq))) :
    board_count o2 = board_count o := by
  apply board_count_eq_of_card
  have h : cells o2 = insert (d, t) ((cells o).erase (i, sq)) := by
    ext p
    rw [mem_cells _ ho2, hspec, Finset.mem_insert, Finset.mem_erase, mem_cells _ ho]
    constructor
    · rintro (⟨h1, h2⟩ | ⟨h1, h2⟩)
      · exact Or.inl (Prod.ext h1 h2)
      · refine Or.inr ⟨fun e => h2 ?_, h1⟩
        rw [e]; exact ⟨rfl, rfl⟩
    · rintro (h1 | ⟨h1, h2⟩)
      · rw [h1]; exact Or.inl ⟨rfl, rfl⟩
      · exact Or.inr ⟨h2, fun e => h1 (Prod.ext e.1 e.2)⟩
  have hmem : (i, sq) ∈ cells o := (mem_cells o ho _).mpr hsq
  have hnot : (d, t) ∉ (cells o).erase (i, sq) := by
    intro hc
    have := (mem_cells o ho _).mp (Finset.mem_of_mem_erase hc)
    simp only [hv d] at this
    exact Bool.false_ne_true this
  rw [h, Finset.card_insert_of_not_mem hnot, Finset.card_erase_of_mem hmem]
  have : 0 < (cells o).card := Finset.card_pos.mpr ⟨_, hmem⟩
  omega

/-- One cell enters: the count grows by one. -/
theorem board_count_add (o o2 : Fin 6 → Nat) (ho : ∀ m, o m < 2 ^ 30)
    (ho2 : ∀ m, o2 m < 2 ^ 30) (d : Fin 6) (t : Nat) (hv : ∀ j, (o j).testBit t = false)
    (hspec : ∀ m n, (o2 m).testBit n = true ↔ (m = d ∧ n = t) ∨ (o m).testBit n = true) :
    board_count o2 = board_count o + 1 := by
  rw [board_count_eq_card, board_count_eq_card]
  have h : cells o2 = insert (d, t) (cells o) := by
    ext p
    rw [mem_cells _ ho2, hspec, Finset.mem_insert, mem_cells _ ho]
    constructor
    · rintro (⟨h1, h2⟩ | h1)
      · exact Or.inl (Prod.ext h1 h2)
      · exact Or.inr h1
    · rintro (h1 | h1)
      · rw [h1]; exact Or.inl ⟨rfl, rfl⟩
      · exact Or.inr h1
  have hnot : (d, t) ∉ cells o := by
    intro hc
    have := (mem_cells o ho _).mp hc
    simp only [hv d] at this
    exact Bool.false_ne_true this
  rw [h, Finset.card_insert_of_not_mem hnot]
  push_cast; rfl

/-- One cell leaves: the count drops by one. -/
theorem board_count_remove (e e2 : Fin 6 → Nat) (he : ∀ m, e m < 2 ^ 30)
    (he2 : ∀ m, e2 m < 2 ^ 30) (k : Fin 6) (t : Nat) (hk : (e k).testBit t = true)
    (hd : ∀ i j n, (e i).testBit n = true → (e j).testBit n = true → i = j)
    (hspec : ∀ m n, (e2 m).testBit n = true ↔ (e m).testBit n = true ∧ n ≠ t) :
    board_count e2 + 1 = board_count e := by
  rw [board_count_eq_card, board_count_eq_card]
  have h : cells e2 = (cells e).erase (k, t) := by
    ext p
    rw [mem_cells _ he2, hspec, Finset.mem_erase, mem_cells _ he]
    constructor
    · rintro ⟨h1, h2⟩
      exact ⟨fun e => h2 (congrArg Prod.snd e), h1⟩
    · rintro ⟨h1, h2⟩
      refine ⟨h2, fun e => h1 ?_⟩
      refine Prod.ext (hd p.1 k p.2 h2 ?_) e
      rw [e]; exact hk
  have hmem : (k, t) ∈ cells e := (mem_cells e he _).mpr hk
  rw [h, Finset.card_erase_of_mem hmem]
  have : 0 < (cells e).card := Finset.card_pos.mpr ⟨_, hmem⟩
  omega

theorem hand_count_update (h : Fin 4 → Int) (k : Fin 4) (v : Int) :
    hand_count (Function.update h k v) = hand_count h - h k + v := by
  unfold hand_count
  have e : List.finRange 4 = [0, 1, 2, 3] := by rfl
  rw [e]
  simp only [List.map, List.sum_cons, List.sum_nil, Function.update_apply]
  fin_cases k <;> simp <;> ring


theorem total_next_move (s : state) (hw : s.well_formed) (i : Fin 6) (sq t : Nat)
    (hsq : (s.pieces_on_board i).testBit sq = true) (ht : t < 30)
    (hv : ∀ j, (s.pieces_on_board j).testBit t = false) :
    ∃ q, s.next ⟨sq, -1, t⟩ = some q ∧ q.total_pieces = s.total_pieces := by
  obtain ⟨hok, hh1, hh2⟩ := (well_formed_iff s).mp hw
  have hok2 := hok
  obtain ⟨b1, b2, d1, d2, d3⟩ := hok2
  have hmv := testBit_moved_board s.pieces_on_board b1 i sq t
  by_cases hq : ∀ k, (s.enemy_pieces_on_board k).testBit t = false
  · refine ⟨_, next_move_quiet s hok i sq t hsq ht hq, ?_⟩
    have hspec : ∀ m n, (s.enemy_pieces_on_board m).testBit n = true ↔
        (s.enemy_pieces_on_board m).testBit n = true ∧ n ≠ t := by
      intro m n
      simp only [iff_self_and]
      intro h hn
      subst hn
      rw [hq m] at h; exact Bool.false_ne_true h
    obtain ⟨c1, c2, _⟩ := board_ok_step _ _ _ _ hok i _ sq t ht hv hmv hspec
    simp only [state.total_pieces]
    rw [board_count_flip _ b2, board_count_flip _ c1,
      board_count_step _ _ b1 c1 i _ sq t hsq hv hmv]
    ring
  · simp only [not_forall, Bool.not_eq_false] at hq
    obtain ⟨k, hk⟩ := hq
    refine ⟨_, next_move_capture s hok i k sq t hsq ht hk, ?_⟩
    have hspec := testBit_update_clear _ b2 d2 k t hk
    obtain ⟨c1, c2, _⟩ := board_ok_step _ _ _ _ hok i _ sq t ht hv hmv hspec
    have e1 := board_count_remove _ _ b2 c2 k t hk d2 hspec
    simp only [state.total_pieces]
    rw [board_count_flip _ c2, board_count_flip _ c1,
      board_count_step _ _ b1 c1 i _ sq t hsq hv hmv, hand_count_update, ← e1]
    ring

theorem total_next_drop (s : state) (hw : s.well_formed) (k : Fin 4) (t : Nat) (ht : t < 30)
    (hv : ∀ j, (s.pieces_on_board j).testBit t = false)
    (hq : ∀ j, (s.enemy_pieces_on_board j).testBit t = false) :
    ∃ q, s.next ⟨-1, (k.val : Int), t⟩ = some q ∧ q.total_pieces = s.total_pieces := by
  obtain ⟨hok, hh1, hh2⟩ := (well_formed_iff s).mp hw
  have hok2 := hok
  obtain ⟨b1, b2, d1, d2, d3⟩ := hok2
  refine ⟨_, next_drop s k t (by omega), ?_⟩
  have hspec := testBit_update_set s.pieces_on_board ⟨k.val, by omega⟩ t
  have c1 : ∀ m, Function.update s.pieces_on_board ⟨k.val, by omega⟩
      (s.pieces_on_board ⟨k.val, by omega⟩ ||| 1 <<< t) m < 2 ^ 30 := by
    intro m
    apply Nat.lt_pow_two_of_testBit
    intro n hn
    by_contra hc
    rw [Bool.not_eq_false, hspec] at hc
    rcases hc with ⟨_, rfl⟩ | hc
    · omega
    · exact absurd (lt_of_testBit (b1 m) hc) (by omega)
  simp only [state.total_pieces]
  rw [board_count_flip _ b2, board_count_flip _ c1,
    board_count_add _ _ b1 c1 _ t hv hspec, hand_count_update]
  ring

/-- The successor of a well-formed position under a generated action exists and is
well-formed. -/
theorem well_formed_step (p : state) (a : action) (hw : p.well_formed) (ha : a ∈ p.actions) :
    ∃ q, p.next a = some q ∧ q.well_formed := by
  rcases actions_cases p hw a ha with ⟨i, sq, t, h1, _, h3, _, h5, rfl⟩ |
    ⟨k, t, _, hh, h1, h2, h3, rfl⟩
  · exact well_formed_next_move p hw i sq t h1 h5 h3
  · exact well_formed_next_drop p hw k t hh h1 h2 h3

/-- C1. The starting layout is well-formed, the successor of a well-formed position
under any generated action exists and is well-formed again, and hence every
reachable position is well-formed. -/
theorem well_formed_invariant :
    state.default.well_formed ∧
    (∀ (p : state) (a : action), p.well_formed → a ∈ p.actions →
      ∃ q, p.next a = some q ∧ q.well_formed) ∧
    (∀ q : state, reachable q → q.well_formed) := by
  refine ⟨by decide, well_formed_step, ?_⟩
  intro q hq
  induction hq with
  | start => decide
  | step p q a _ ha hn ih =>
    obtain ⟨q2, h1, h2⟩ := well_formed_step p a ih ha
    rw [hn] at h1
    cases h1
    exact h2

theorem well_formed_invariant_witness :
    state.default.well_formed ∧ (⟨16, -1, 11⟩ : action) ∈ state.default.actions ∧
      ∃ q, state.default.next ⟨16, -1, 11⟩ = some q ∧ q.well_formed :=
  ⟨by decide, by decide,
    well_formed_invariant.2.1 state.default ⟨16, -1, 11⟩ (by decide) (by decide)⟩

/-- C2. For a well-formed position and any generated action the successor exists
and has the same total piece count (popcounts of the twelve bitsets plus the eight
hand counts). -/
theorem total_pieces_conserved (p : state) (a : action) (hw : p.well_formed)
    (ha : a ∈ p.actions) :
    ∃ q, p.next a = some q ∧ q.total_pieces = p.total_pieces := by
  rcases actions_cases p hw a ha with ⟨i, sq, t, h1, _, h3, _, h5, rfl⟩ |
    ⟨k, t, _, hh, h1, h2, h3, rfl⟩
  · exact total_next_move p hw i sq t h1 h5 h3
  · exact total_next_drop p hw k t h1 h2 h3

theorem total_pieces_conserved_witness :
    state.default.well_formed ∧ (⟨16, -1, 11⟩ : action) ∈ state.default.actions ∧
      ∃ q, state.default.next ⟨16, -1, 11⟩ = some q ∧
        q.total_pieces = state.default.total_pieces :=
  ⟨by decide, by decide,
    total_pieces_conserved state.default ⟨16, -1, 11⟩ (by decide) (by decide)⟩


/-- C3. Every generated action of a well-formed position targets a board square and
is either a board move from an own square to a square free of own pieces or a drop
of a held kind onto an empty square; the transition is then defined (no shift or
index out of range) and leaves no negative count in the mover's hand. -/
theorem generator_transition_agree (p : state) (a : action) (hw : p.well_formed)
    (ha : a ∈ p.actions) :
    (0 ≤ a.to_ ∧ a.to_ ≤ 29) ∧
    ((a.from_hand = -1 ∧ 0 ≤ a.from_board ∧ a.from_board ≤ 29 ∧
        (∃ i, (p.pieces_on_board i).testBit a.from_board.toNat = true) ∧
        (∀ i, (p.pieces_on_board i).testBit a.to_.toNat = false)) ∨
     (a.from_board = -1 ∧
        (∃ k : Fin 4, a.from_hand = (k.val : Int) ∧ 0 < p.piece_counts_in_hand k) ∧
        (∀ i, (p.pieces_on_board i).testBit a.to_.toNat = false) ∧
        (∀ i, (p.enemy_pieces_on_board i).testBit a.to_.toNat = false))) ∧
    (∃ q, p.next a = some q ∧ ∀ k, 0 ≤ q.enemy_piece_counts_in_hand k) := by
  have hnext : ∃ q, p.next a = some q ∧ ∀ k, 0 ≤ q.enemy_piece_counts_in_hand k := by
    obtain ⟨q, h1, h2⟩ := well_formed_step p a hw ha
    exact ⟨q, h1, h2.2.2.2.2.2.2⟩
  have hh1 : ∀ k, 0 ≤ p.piece_counts_in_hand k := hw.2.2.2.2.2.1
  rcases actions_cases p hw a ha with ⟨i, sq, t, h1, _, h3, h4, h5, rfl⟩ |
    ⟨k, t, _, hh, h1, h2, h3, rfl⟩
  · refine ⟨⟨Int.natCast_nonneg t, by simp only; omega⟩, Or.inl ⟨rfl, Int.natCast_nonneg sq,
      by simp only; omega, ⟨i, by simpa using h1⟩, by simpa using h3⟩, hnext⟩
  · refine ⟨⟨Int.natCast_nonneg t, by simp only; omega⟩, Or.inr ⟨rfl, ⟨k, rfl,
      lt_of_le_of_ne (hh1 k) (Ne.symm hh)⟩, by simpa using h2, by simpa using h3⟩, hnext⟩

theorem generator_transition_agree_witness :
    state.default.well_formed ∧ (⟨16, -1, 11⟩ : action) ∈ state.default.actions ∧
      ∃ q, state.default.next ⟨16, -1, 11⟩ = some q ∧
        ∀ k, 0 ≤ q.enemy_piece_counts_in_hand k :=
  ⟨by decide, by decide,
    (generator_transition_agree state.default ⟨16, -1, 11⟩ (by decide) (by decide)).2.2⟩

/-- C4. Applying the flip `b ↦ reverse(b << 2)` twice to a bitset with no bit
outside the low 30 bits returns it unchanged. -/
theorem flip_round_trip (b : Nat) (hb : b < 2 ^ 30) : flip (flip b) = b :=
  flip_flip b hb

theorem flip_round_trip_witness :
    (0b00100010000000000000000000000000 : Nat) < 2 ^ 30 ∧
      flip (flip 0b00100010000000000000000000000000) = 0b00100010000000000000000000000000 :=
  ⟨by norm_num, flip_round_trip _ (by norm_num)⟩

/-- C5. The flip maps square `i` to square `29 - i`: for every word `b` (in
particular every bitset inside the low 30 bits) bit `29 - i` of the flipped word is
bit `i` of `b` for `i` in `0..29`, and bits 30 and 31 of the result are clear. -/
theorem flip_maps_square (b : Nat) :
    (∀ i, i ≤ 29 → (flip b).testBit (29 - i) = b.testBit i) ∧
      (flip b).testBit 30 = false ∧ (flip b).testBit 31 = false := by
  refine ⟨fun i hi => ?_, ?_, ?_⟩
  · have e : 29 - (29 - i) = i := by omega
    rw [testBit_flip, e]
    simp; omega
  · rw [testBit_flip]; simp
  · rw [testBit_flip]; simp


theorem nodup_flatMap_of {α β : Type} (l : List α) (f : α → List β) (hl : l.Nodup)
    (hf : ∀ x ∈ l, (f x).Nodup)
    (hd : ∀ x ∈ l, ∀ y ∈ l, ∀ b, b ∈ f x → b ∈ f y → x = y) : (l.flatMap f).Nodup := by
  rw [List.nodup_flatMap]
  refine ⟨hf, hl.pairwise_of_forall_ne ?_⟩
  intro x hx y hy hne
  intro b hbx hby
  exact hne (hd x hx y hy b hbx hby)

theorem nodup_move_actions (s : state) (hw : s.well_formed) : s.move_actions.Nodup := by
  obtain ⟨⟨b1, b2, d1, _, _⟩, _, _⟩ := (well_formed_iff s).mp hw
  have hs : ∀ i, s.pieces_on_board i < 2 ^ 32 := fun i => lt32_of_lt30 (b1 i)
  unfold state.move_actions
  apply nodup_flatMap_of _ _ (List.nodup_finRange 6)
  · intro i _
    apply nodup_flatMap_of _ _ (nodup_bit_loop _ (hs i))
    · intro sq _
      apply List.Nodup.map_on _ (nodup_bit_loop _
        (lt_of_le_of_lt Nat.and_le_left (lt32_of_lt30 (control_lt i sq))))
      intro x _ y _ h
      simpa using congrArg action.to_ h
    · intro x _ y _ b hbx hby
      obtain ⟨_, _, rfl⟩ := List.mem_map.mp hbx
      obtain ⟨_, _, h⟩ := List.mem_map.mp hby
      simpa using (congrArg action.from_board h).symm
  · intro i _ j _ b hbi hbj
    obtain ⟨x, hx, hbx⟩ := List.mem_flatMap.mp hbi
    obtain ⟨y, hy, hby⟩ := List.mem_flatMap.mp hbj
    obtain ⟨_, _, rfl⟩ := List.mem_map.mp hbx
    obtain ⟨_, _, h⟩ := List.mem_map.mp hby
    have e : y = x := by simpa using congrArg action.from_board h
    subst e
    exact d1 i j y ((mem_bit_loop _ (hs i) y).mp hx) ((mem_bit_loop _ (hs j) y).mp hy)

theorem nodup_chick_drop_actions (s : state) : s.chick_drop_actions.Nodup := by
  unfold state.chick_drop_actions
  split
  · apply List.Nodup.map_on _ (nodup_bit_loop _
      (lt_of_le_of_lt Nat.and_le_left (drop_mask_lt _ _)))
    intro x _ y _ h
    simpa using congrArg action.to_ h
  · exact List.nodup_nil

theorem nodup_other_drop_actions (s : state) : s.other_drop_actions.Nodup := by
  unfold state.other_drop_actions
  apply nodup_flatMap_of _ _ (by decide)
  · intro i _
    split
    · apply List.Nodup.map_on _ (nodup_bit_loop _ (drop_mask_lt _ _))
      intro x _ y _ h
      simpa using congrArg action.to_ h
    · exact List.nodup_nil
  · intro i _ j _ b hbi hbj
    split at hbi
    · split at hbj
      · obtain ⟨_, _, rfl⟩ := List.mem_map.mp hbi
        obtain ⟨_, _, h⟩ := List.mem_map.mp hbj
        have e := congrArg action.from_hand h
        simp only [Nat.cast_inj] at e
        exact (Fin.ext e).symm
      · exact absurd hbj (List.not_mem_nil _)
    · exact absurd hbi (List.not_mem_nil _)

theorem from_board_of_mem_move (s : state) (a : action) (h : a ∈ s.move_actions) :
    0 ≤ a.from_board ∧ a.from_hand = -1 := by
  unfold state.move_actions at h
  obtain ⟨i, _, h⟩ := List.mem_flatMap.mp h
  obtain ⟨x, _, h⟩ := List.mem_flatMap.mp h
  obtain ⟨y, _, rfl⟩ := List.mem_map.mp h
  exact ⟨Int.natCast_nonneg x, rfl⟩

theorem from_hand_of_mem_chick_drop (s : state) (a : action) (h : a ∈ s.chick_drop_actions) :
    a.from_board = -1 ∧ a.from_hand = 0 := by
  unfold state.chick_drop_actions at h
  split at h
  · obtain ⟨y, _, rfl⟩ := List.mem_map.mp h
    exact ⟨rfl, rfl⟩
  · exact absurd h (List.not_mem_nil _)

theorem from_hand_of_mem_other_drop (s : state) (a : action) (h : a ∈ s.other_drop_actions) :
    a.from_board = -1 ∧ (a.from_hand = 1 ∨ a.from_hand = 2) := by
  unfold state.other_drop_actions at h
  obtain ⟨i, hi, h⟩ := List.mem_flatMap.mp h
  split at h
  · obtain ⟨y, _, rfl⟩ := List.mem_map.mp h
    refine ⟨rfl, ?_⟩
    simp only [List.mem_cons, List.mem_singleton, List.not_mem_nil, or_false] at hi
    rcases hi with rfl | rfl
    · exact Or.inl rfl
    · exact Or.inr rfl
  · exact absurd h (List.not_mem_nil _)

theorem nodup_actions (p : state) (hw : p.well_formed) : p.actions.Nodup := by
  unfold state.actions
  rw [List.nodup_append, List.nodup_append]
  refine ⟨⟨nodup_move_actions p hw, nodup_chick_drop_actions p, ?_⟩,
    nodup_other_drop_actions p, ?_⟩
  · intro a h1 h2
    have e1 := from_board_of_mem_move p a h1
    have e2 := from_hand_of_mem_chick_drop p a h2
    omega
  · intro a h1 h2
    have e3 := from_hand_of_mem_other_drop p a h2
    rcases List.mem_append.mp h1 with h | h
    · have e1 := from_board_of_mem_move p a h
      omega
    · have e2 := from_hand_of_mem_chick_drop p a h
      omega

/-- C6. The action list of a well-formed position has no duplicates: no two entries
agree in `(from_board, from_hand, to)`. -/
theorem actions_nodup (p : state) (hw : p.well_formed) :
    p.actions.Nodup ∧
      ∀ a b : action, a ∈ p.actions → b ∈ p.actions → a.from_board = b.from_board →
        a.from_hand = b.from_hand → a.to_ = b.to_ → a = b := by
  refine ⟨nodup_actions p hw, fun a b _ _ h1 h2 h3 => ?_⟩
  cases a
  cases b
  simp only at h1 h2 h3
  rw [h1, h2, h3]

theorem actions_nodup_witness :
    state.default.well_formed ∧ state.default.actions.Nodup :=
  ⟨by decide, (actions_nodup state.default (by decide)).1⟩

theorem mem_actions_move (p : state) (hw : p.well_formed) (s t : Nat) :
    (⟨(s : Int), -1, (t : Int)⟩ : action) ∈ p.actions ↔
      ∃ k : Fin 6, (p.pieces_on_board k).testBit s = true ∧ (control k s).testBit t = true ∧
        ∀ j, (p.pieces_on_board j).testBit t = false := by
  obtain ⟨⟨b1, _, _, _, _⟩, _, _⟩ := (well_formed_iff p).mp hw
  have hs : ∀ i, p.pieces_on_board i < 2 ^ 32 := fun i => lt32_of_lt30 (b1 i)
  rw [mem_actions_iff, mem_move_actions p hs]
  constructor
  · rintro (⟨i, sq, t2, h1, h2, h3, h⟩ | h | h)
    · have e1 : s = sq := by simpa using congrArg action.from_board h
      have e2 : t = t2 := by simpa using congrArg action.to_ h
      subst e1 e2
      exact ⟨i, h1, h2, h3⟩
    · have := (from_hand_of_mem_chick_drop p _ h).1
      simp only at this
      omega
    · have := (from_hand_of_mem_other_drop p _ h).1
      simp only at this
      omega
  · rintro ⟨k, h1, h2, h3⟩
    exact Or.inl ⟨k, s, t, h1, h2, h3, rfl⟩

/-- C7. Board moves are generated exhaustively and exactly: the move from square `s`
to square `t` is generated if and only if some own kind `k` has bit `s` set, bit `t`
is set in `control(k, s)`, and no own bitset has bit `t` set. -/
theorem board_moves_exact (p : state) (hw : p.well_formed) (s t : Nat) :
    (⟨(s : Int), -1, (t : Int)⟩ : action) ∈ p.actions ↔
      ∃ k : Fin 6, (p.pieces_on_board k).testBit s = true ∧ (control k s).testBit t = true ∧
        ∀ j, (p.pieces_on_board j).testBit t = false :=
  mem_actions_move p hw s t

theorem board_moves_exact_witness :
    state.default.well_formed ∧ (⟨(16 : Nat), -1, (11 : Nat)⟩ : action) ∈ state.default.actions :=
  ⟨by decide, (board_moves_exact state.default (by decide) 16 11).mpr
    ⟨0, by decide, by decide, by decide⟩⟩


/-- C8 fails for the lion: with a lion in the own hand and square 10 empty, no drop
of the lion onto square 10 is generated. -/
theorem lion_drop_not_generated :
    lion_in_hand_state.well_formed ∧ 0 < lion_in_hand_state.piece_counts_in_hand 3 ∧
      (∀ i, (lion_in_hand_state.pieces_on_board i).testBit 10 = false) ∧
      (∀ i, (lion_in_hand_state.enemy_pieces_on_board i).testBit 10 = false) ∧
      (⟨-1, 3, 10⟩ : action) ∉ lion_in_hand_state.actions := by
  decide

/-- C8, amended. For the hand kinds cat (1) and dog (2) with a positive own hand
count, the drop actions of that kind are exactly the actions `(-1, k, t)` for the
board squares `t` in `0..29` empty on both sides, each occurring once; no action
drops the lion (hand index 3). -/
theorem other_drops_exact (p : state) (hw : p.well_formed) :
    (∀ k : Fin 4, (k = 1 ∨ k = 2) → 0 < p.piece_counts_in_hand k → ∀ a : action,
      ((a ∈ p.actions ∧ a.from_board = -1 ∧ a.from_hand = (k.val : Int)) ↔
        ∃ t : Nat, t < 30 ∧ (∀ i, (p.pieces_on_board i).testBit t = false) ∧
          (∀ i, (p.enemy_pieces_on_board i).testBit t = false) ∧
          a = ⟨-1, (k.val : Int), (t : Int)⟩) ∧
      (a ∈ p.actions → p.actions.count a = 1)) ∧
    (∀ a ∈ p.actions, a.from_hand ≠ 3) := by
  obtain ⟨⟨b1, b2, _, _, _⟩, _, _⟩ := (well_formed_iff p).mp hw
  have hs : ∀ i, p.pieces_on_board i < 2 ^ 32 := fun i => lt32_of_lt30 (b1 i)
  have he : ∀ i, p.enemy_pieces_on_board i < 2 ^ 32 := fun i => lt32_of_lt30 (b2 i)
  refine ⟨fun k hk hh a => ⟨⟨?_, ?_⟩, fun ha => List.count_eq_one_of_mem (nodup_actions p hw) ha⟩,
    ?_⟩
  · rintro ⟨ha, hb, hf⟩
    rcases (mem_actions_iff p a).mp ha with h | h | h
    · have := from_board_of_mem_move p a h; omega
    · have := from_hand_of_mem_chick_drop p a h
      rcases hk with rfl | rfl <;> simp at hf <;> omega
    · obtain ⟨k2, t, _, _, h1, h2, h3, rfl⟩ := (mem_other_drop_actions p hs he a).mp h
      have e : k2 = k := by
        simp only [Nat.cast_inj] at hf
        exact Fin.ext hf
      subst e
      exact ⟨t, h1, h2, h3, rfl⟩
  · rintro ⟨t, h1, h2, h3, rfl⟩
    refine ⟨(mem_actions_iff p _).mpr (Or.inr (Or.inr ?_)), rfl, rfl⟩
    exact (mem_other_drop_actions p hs he _).mpr ⟨k, t, hk, ne_of_gt hh, h1, h2, h3, rfl⟩
  · intro a ha
    rcases (mem_actions_iff p a).mp ha with h | h | h
    · have := from_board_of_mem_move p a h; omega
    · have := from_hand_of_mem_chick_drop p a h; omega
    · have := from_hand_of_mem_other_drop p a h; omega

theorem other_drops_exact_witness :
    lion_in_hand_state.well_formed ∧ ∀ a ∈ lion_in_hand_state.actions, a.from_hand ≠ 3 :=
  ⟨by decide, (other_drops_exact lion_in_hand_state (by decide)).2⟩

/-- C9 fails: with a chick in the own hand, square 21 is empty, below the top row and
not in front of the enemy lion (square 2), yet no chick drop onto 21 is generated;
an own chick stands in the same column (square 16). -/
theorem chick_drop_column_excluded :
    chick_in_hand_state.well_formed ∧ 0 < chick_in_hand_state.piece_counts_in_hand 0 ∧
      (∀ i, (chick_in_hand_state.pieces_on_board i).testBit 21 = false) ∧
      (∀ i, (chick_in_hand_state.enemy_pieces_on_board i).testBit 21 = false) ∧
      (chick_in_hand_state.enemy_pieces_on_board piece_type.lion).testBit (21 - 5) = false ∧
      (chick_in_hand_state.pieces_on_board piece_type.chick).testBit 16 = true ∧
      (⟨-1, 0, 21⟩ : action) ∉ chick_in_hand_state.actions := by
  decide

/-- C9, amended. With at least one chick in the own hand, the chick drops target
exactly the board squares `t` empty on both sides, outside the top row (`5 ≤ t`), not
directly in front of an enemy lion (no enemy lion on `t - 5`), and in a column
without an own chick on the board. -/
theorem chick_drops_exact (p : state) (hw : p.well_formed)
    (hh : 0 < p.piece_counts_in_hand 0) (a : action) :
    (a ∈ p.actions ∧ a.from_board = -1 ∧ a.from_hand = 0) ↔
      ∃ t : Nat, t < 30 ∧ (∀ i, (p.pieces_on_board i).testBit t = false) ∧
        (∀ i, (p.enemy_pieces_on_board i).testBit t = false) ∧ 5 ≤ t ∧
        (p.enemy_pieces_on_board piece_type.lion).testBit (t - 5) = false ∧
        (∀ sq, sq % 5 = t % 5 → (p.pieces_on_board piece_type.chick).testBit sq = false) ∧
        a = ⟨-1, 0, (t : Int)⟩ := by
  obtain ⟨⟨b1, b2, _, _, _⟩, _, _⟩ := (well_formed_iff p).mp hw
  have hs : ∀ i, p.pieces_on_board i < 2 ^ 32 := fun i => lt32_of_lt30 (b1 i)
  have he : ∀ i, p.enemy_pieces_on_board i < 2 ^ 32 := fun i => lt32_of_lt30 (b2 i)
  constructor
  · rintro ⟨ha, hb, hf⟩
    rcases (mem_actions_iff p a).mp ha with h | h | h
    · have := from_board_of_mem_move p a h; omega
    · obtain ⟨_, t, h1, h2, h3, h4, rfl⟩ := (mem_chick_drop_actions p hs he a).mp h
      obtain ⟨c1, c2, c3⟩ := (testBit_chick_allowed p (b1 _) t h1).mp h4
      refine ⟨t, h1, h2, h3, c1, c2, fun sq hsq => ?_, rfl⟩
      by_cases e : sq = t
      · rw [e]; exact h2 _
      · exact c3 sq e hsq
    · have := from_hand_of_mem_other_drop p a h; omega
  · rintro ⟨t, h1, h2, h3, c1, c2, c3, rfl⟩
    refine ⟨(mem_actions_iff p _).mpr (Or.inr (Or.inl ?_)), rfl, rfl⟩
    exact (mem_chick_drop_actions p hs he _).mpr ⟨ne_of_gt hh, t, h1, h2, h3,
      (testBit_chick_allowed p (b1 _) t h1).mpr ⟨c1, c2, fun sq _ hsq => c3 sq hsq⟩, rfl⟩

theorem chick_drops_exact_witness :
    chick_in_hand_state.well_formed ∧ 0 < chick_in_hand_state.piece_counts_in_hand 0 ∧
      (⟨-1, 0, (20 : Nat)⟩ : action) ∈ chick_in_hand_state.actions :=
  ⟨by decide, by decide,
    ((chick_drops_exact chick_in_hand_state (by decide) (by decide) ⟨-1, 0, (20 : Nat)⟩).mpr
      ⟨20, by decide, by decide, by decide, by decide, by decide,
        fun sq hsq => by
          by_contra hc
          have hb : (chick_in_hand_state.pieces_on_board piece_type.chick).testBit sq = true := by
            simpa using hc
          have hlt : sq < 18 + 1 := lt_of_testBit (by decide) hb
          interval_cases sq <;> revert hb <;> revert hsq <;> decide,
        rfl⟩).1⟩


/-- C10. Capture demotes into the mover's hand. For a generated board move onto
square `t`: if an enemy piece of kind `k` stands on `t`, the successor's enemy hand
(the mover's hand) is the own hand with the count of `demoted k` raised by one and
the successor's own bitsets are the flips of the enemy bitsets with bit `t` cleared
from kind `k`; if no enemy piece stands on `t`, hand and enemy bitsets carry over
unchanged (up to the flip). -/
theorem capture_demotes (p : state) (hw : p.well_formed) (a : action) (ha : a ∈ p.actions)
    (hm : 0 ≤ a.from_board) :
    ∃ q, p.next a = some q ∧
      (∀ k : Fin 6, (p.enemy_pieces_on_board k).testBit a.to_.toNat = true →
        (∀ j : Fin 4, q.enemy_piece_counts_in_hand j =
          p.piece_counts_in_hand j + (if j.val = (demoted k).val then 1 else 0)) ∧
        (∀ m : Fin 6, q.pieces_on_board m =
          flip (if m = k then p.enemy_pieces_on_board m &&& not32 (1 <<< a.to_.toNat)
            else p.enemy_pieces_on_board m))) ∧
      ((∀ k : Fin 6, (p.enemy_pieces_on_board k).testBit a.to_.toNat = false) →
        (∀ j : Fin 4, q.enemy_piece_counts_in_hand j = p.piece_counts_in_hand j) ∧
        (∀ m : Fin 6, q.pieces_on_board m = flip (p.enemy_pieces_on_board m))) := by
  obtain ⟨hok, _, _⟩ := (well_formed_iff p).mp hw
  have hok2 := hok
  obtain ⟨_, _, _, d2, _⟩ := hok2
  rcases actions_cases p hw a ha with ⟨i, sq, t, h1, _, h3, _, h5, rfl⟩ |
    ⟨k, t, _, hh, h1, h2, h3, rfl⟩
  · simp only [Int.toNat_ofNat]
    by_cases hq : ∀ k, (p.enemy_pieces_on_board k).testBit t = false
    · refine ⟨_, next_move_quiet p hok i sq t h1 h5 hq, ?_, fun _ => ⟨fun j => rfl, fun m => rfl⟩⟩
      intro k hk
      rw [hq k] at hk; exact absurd hk Bool.false_ne_true
    · simp only [not_forall, Bool.not_eq_false] at hq
      obtain ⟨k, hk⟩ := hq
      refine ⟨_, next_move_capture p hok i k sq t h1 h5 hk, ?_, ?_⟩
      · intro k2 hk2
        have e : k2 = k := d2 k2 k t hk2 hk
        subst e
        refine ⟨fun j => ?_, fun m => ?_⟩
        · simp only [Function.update_apply]
          by_cases hj : j.val = (demoted k2).val
          · have e2 : j = ⟨(demoted k2).val, demoted_lt k2⟩ := Fin.ext hj
            simp [e2]
          · have e2 : ¬ j = ⟨(demoted k2).val, demoted_lt k2⟩ := fun h => hj (congrArg Fin.val h)
            simp [e2, hj]
        · simp only [reverse_all, Function.update_apply]
          by_cases hmk : m = k2
          · subst hmk; simp
          · simp [hmk]
      · intro hq
        rw [hq k] at hk; exact absurd hk Bool.false_ne_true
  · simp only at hm
    omega

theorem capture_demotes_witness :
    state.default.well_formed ∧ (⟨16, -1, 11⟩ : action) ∈ state.default.actions ∧
      ∃ q, state.default.next ⟨16, -1, 11⟩ = some q ∧
        ∀ j : Fin 4, q.enemy_piece_counts_in_hand j =
          state.default.piece_counts_in_hand j + (if j.val = (demoted 0).val then 1 else 0) := by
  refine ⟨by decide, by decide, ?_⟩
  obtain ⟨q, h1, h2, _⟩ :=
    capture_demotes state.default (by decide) ⟨16, -1, 11⟩ (by decide) (by decide)
  exact ⟨q, h1, (h2 0 (by decide)).1⟩


theorem landing_kind_eq (i : Fin 6) (t : Nat) :
    landing_kind i (1 <<< t) = if t < 10 then promoted i else i := by
  have h : enemy_side_bits = 2 ^ 10 - 1 := by norm_num [enemy_side_bits]
  have e : (1 <<< t &&& enemy_side_bits ≠ 0) ↔ t < 10 := by
    rw [Nat.land_comm, and_one_shiftLeft_ne_zero, h, Nat.testBit_two_pow_sub_one,
      decide_eq_true_eq]
  unfold landing_kind
  by_cases ht : t < 10
  · rw [if_pos (e.mpr ht), if_pos ht]
  · rw [if_neg (fun hc => ht (e.mp hc)), if_neg ht]

/-- The successor of a board move: the mover's bitsets and the opponent's hand. -/
theorem next_move_enemy (s : state) (hok : board_ok s.pieces_on_board s.enemy_pieces_on_board)
    (i : Fin 6) (sq t : Nat) (hsq : (s.pieces_on_board i).testBit sq = true) (ht : t < 30) :
    ∃ q, s.next ⟨sq, -1, t⟩ = some q ∧
      q.enemy_pieces_on_board = reverse_all (moved_board s.pieces_on_board i (1 <<< sq) (1 <<< t)) ∧
      q.piece_counts_in_hand = s.enemy_piece_counts_in_hand := by
  by_cases hq : ∀ k, (s.enemy_pieces_on_board k).testBit t = false
  · exact ⟨_, next_move_quiet s hok i sq t hsq ht hq, rfl, rfl⟩
  · simp only [not_forall, Bool.not_eq_false] at hq
    obtain ⟨k, hk⟩ := hq
    exact ⟨_, next_move_capture s hok i k sq t hsq ht hk, rfl, rfl⟩

/-- C11. Promotion on entering the opponent's home rows. For a generated board move
of the own piece of kind `k` from square `s` to square `t`, in the successor the
moved piece stands on square `29 - t` of the enemy bitset of `promoted k` when
`t < 10` and of `k` otherwise (and of no other kind), square `29 - s` is empty in
every enemy bitset, and every other own piece keeps its kind and flipped square. -/
theorem promotion_on_entry (p : state) (hw : p.well_formed) (k : Fin 6) (s t : Nat)
    (ha : (⟨(s : Int), -1, (t : Int)⟩ : action) ∈ p.actions)
    (hk : (p.pieces_on_board k).testBit s = true) :
    ∃ q, p.next ⟨(s : Int), -1, (t : Int)⟩ = some q ∧
      (∀ m, (q.enemy_pieces_on_board m).testBit (29 - t) = true ↔
        m = (if t < 10 then promoted k else k)) ∧
      (∀ m, (q.enemy_pieces_on_board m).testBit (29 - s) = false) ∧
      (∀ m n, n < 30 → n ≠ s → n ≠ t →
        (q.enemy_pieces_on_board m).testBit (29 - n) = (p.pieces_on_board m).testBit n) := by
  obtain ⟨hok, _, _⟩ := (well_formed_iff p).mp hw
  have hok2 := hok
  obtain ⟨b1, _, d1, _, _⟩ := hok2
  obtain ⟨k2, _, h2, h3⟩ := (mem_actions_move p hw s t).mp ha
  have ht : t < 30 := lt_of_testBit (control_lt k2 s) h2
  have hs : s < 30 := lt_of_testBit (b1 k) hk
  have hst : s ≠ t := by
    intro e
    rw [e, h3 k] at hk
    exact Bool.false_ne_true hk
  obtain ⟨q, hq, he, _⟩ := next_move_enemy p hok k s t hk ht
  have hbit : ∀ m n, n < 30 → ((q.enemy_pieces_on_board m).testBit (29 - n) = true ↔
      (m = (if t < 10 then promoted k else k) ∧ n = t) ∨
        ((p.pieces_on_board m).testBit n = true ∧ ¬ (m = k ∧ n = s))) := by
    intro m n hn
    have e : 29 - (29 - n) = n := by omega
    rw [he, reverse_all, testBit_flip_true, e, testBit_moved_board _ b1, landing_kind_eq]
    constructor
    · exact fun h => h.2
    · exact fun h => ⟨by omega, h⟩
  refine ⟨q, hq, fun m => ?_, fun m => ?_, fun m n hn hns hnt => ?_⟩
  · rw [hbit m t ht]
    constructor
    · rintro (h | h)
      · exact h.1
      · rw [h3 m] at h
        exact absurd h.1 Bool.false_ne_true
    · exact fun h => Or.inl ⟨h, rfl⟩
  · by_contra hc
    rw [Bool.not_eq_false, hbit m s hs] at hc
    rcases hc with h | h
    · exact hst h.2
    · exact h.2 ⟨d1 m k s h.1 hk, rfl⟩
  · have h := hbit m n hn
    cases hb : (p.pieces_on_board m).testBit n
    · rw [hb] at h
      by_contra hc
      rw [Bool.not_eq_false] at hc
      rcases h.mp hc with h | h
      · exact hnt h.2
      · exact Bool.false_ne_true h.1
    · rw [hb] at h
      exact h.mpr (Or.inr ⟨rfl, fun hh => hns hh.2⟩)

theorem promotion_on_entry_witness :
    state.default.well_formed ∧ (⟨(16 : Nat), -1, (11 : Nat)⟩ : action) ∈ state.default.actions ∧
      ∃ q, state.default.next ⟨(16 : Nat), -1, (11 : Nat)⟩ = some q ∧
        ∀ m, (q.enemy_pieces_on_board m).testBit (29 - 16) = false := by
  refine ⟨by decide, by decide, ?_⟩
  obtain ⟨q, h1, _, h2, _⟩ :=
    promotion_on_entry state.default (by decide) 0 16 11 (by decide) (by decide)
  exact ⟨q, h1, h2⟩

/-- C12. Hand drop transition and role swap. A generated drop is `(-1, k, t)` with
`t` on the board; its successor has (i) as enemy hand the own hand with the count of
`k` lowered by one, (ii) as enemy bitsets the flips of the own bitsets with bit `t`
added to kind `k` (never to a promoted kind), (iii) as own bitsets the flips of the
enemy bitsets, and (iv) as own hand the enemy hand. -/
theorem drop_transition (p : state) (hw : p.well_formed) (a : action) (ha : a ∈ p.actions)
    (hd : a.from_board < 0) :
    ∃ (k : Fin 4) (t : Nat) (q : state), a = ⟨-1, (k.val : Int), (t : Int)⟩ ∧ t < 30 ∧
      p.next a = some q ∧
      (∀ j, q.enemy_piece_counts_in_hand j =
        p.piece_counts_in_hand j - (if j = k then 1 else 0)) ∧
      (∀ m : Fin 6, q.enemy_pieces_on_board m =
        flip (if m.val = k.val then p.pieces_on_board m ||| 1 <<< t else p.pieces_on_board m)) ∧
      (∀ m, q.pieces_on_board m = flip (p.enemy_pieces_on_board m)) ∧
      q.piece_counts_in_hand = p.enemy_piece_counts_in_hand := by
  rcases actions_cases p hw a ha with ⟨i, sq, t, _, _, _, _, _, rfl⟩ |
    ⟨k, t, _, _, h1, _, _, rfl⟩
  · simp only at hd
    omega
  · refine ⟨k, t, _, rfl, h1, next_drop p k t (by omega), fun j => ?_, fun m => ?_,
      fun m => rfl, rfl⟩
    · simp only [Function.update_apply]
      by_cases hj : j = k
      · simp [hj]
      · simp [hj]
    · simp only [reverse_all, Function.update_apply]
      by_cases hm : m.val = k.val
      · have e : m = ⟨k.val, by omega⟩ := Fin.ext hm
        rw [if_pos e, if_pos hm, ← e]
      · have e : ¬ m = ⟨k.val, by omega⟩ := fun h => hm (congrArg Fin.val h)
        simp [hm, e]

theorem drop_transition_witness :
    chick_in_hand_state.well_formed ∧
      (⟨-1, 0, 20⟩ : action) ∈ chick_in_hand_state.actions ∧
      ∃ (k : Fin 4) (t : Nat) (q : state), (⟨-1, 0, 20⟩ : action) = ⟨-1, (k.val : Int), (t : Int)⟩ ∧
        t < 30 ∧ chick_in_hand_state.next ⟨-1, 0, 20⟩ = some q := by
  refine ⟨by decide, by decide, ?_⟩
  obtain ⟨k, t, q, h1, h2, h3, _⟩ :=
    drop_transition chick_in_hand_state (by decide) ⟨-1, 0, 20⟩ (by decide) (by decide)
  exact ⟨k, t, q, h1, h2, h3⟩

theorem demoted_eq_lion (k : Fin 6) : (demoted k).val = 3 ↔ k = piece_type.lion := by
  revert k; decide

/-- C19. Royal capture makes the successor terminal: for a well-formed position with
no lion in the own hand, the successor of a generated action has a nonzero `is_end`
exactly when the action is a board move onto the square of the enemy lion. -/
theorem royal_capture_terminal (p : state) (hw : p.well_formed)
    (hl : p.piece_counts_in_hand 3 = 0) (a : action) (ha : a ∈ p.actions) :
    ∃ q, p.next a = some q ∧
      (q.is_end ≠ 0 ↔ 0 ≤ a.from_board ∧
        (p.enemy_pieces_on_board piece_type.lion).testBit a.to_.toNat = true) := by
  obtain ⟨hok, _, _⟩ := (well_formed_iff p).mp hw
  have hok2 := hok
  obtain ⟨_, _, _, d2, _⟩ := hok2
  rcases actions_cases p hw a ha with ⟨i, sq, t, h1, _, h3, _, h5, rfl⟩ |
    ⟨k, t, hk, hh, h1, h2, h3, rfl⟩
  · simp only [Int.toNat_ofNat]
    by_cases hq : ∀ k, (p.enemy_pieces_on_board k).testBit t = false
    · refine ⟨_, next_move_quiet p hok i sq t h1 h5 hq, ?_⟩
      simp only [state.is_end]
      have : (⟨3, by decide⟩ : Fin 4) = 3 := rfl
      rw [this, hl, hq]
      simp
    · simp only [not_forall, Bool.not_eq_false] at hq
      obtain ⟨k, hk⟩ := hq
      refine ⟨_, next_move_capture p hok i k sq t h1 h5 hk, ?_⟩
      simp only [state.is_end, Function.update_apply]
      have e3 : (⟨3, by decide⟩ : Fin 4) = 3 := rfl
      by_cases hk3 : k = piece_type.lion
      · subst hk3
        have e : (⟨3, by decide⟩ : Fin 4) = ⟨(demoted piece_type.lion).val, demoted_lt _⟩ := by
          decide
        rw [if_pos e, ← e, e3, hl, hk]
        simp
      · have e : ¬ (⟨3, by decide⟩ : Fin 4) = ⟨(demoted k).val, demoted_lt _⟩ :=
          fun h => hk3 ((demoted_eq_lion k).mp (congrArg Fin.val h).symm)
        rw [if_neg e, e3, hl]
        have : ¬ (p.enemy_pieces_on_board piece_type.lion).testBit t = true :=
          fun h => hk3 (d2 k _ t hk h)
        simp [this]
  · refine ⟨_, next_drop p k t (by omega), ?_⟩
    simp only [state.is_end, Function.update_apply]
    have e3 : (⟨3, by decide⟩ : Fin 4) = 3 := rfl
    have e : ¬ (3 : Fin 4) = k := by
      rcases hk with rfl | rfl | rfl <;> decide
    rw [e3, if_neg e, hl]
    simp

theorem royal_capture_terminal_witness :
    state.default.well_formed ∧ state.default.piece_counts_in_hand 3 = 0 ∧
      (⟨16, -1, 11⟩ : action) ∈ state.default.actions ∧
      ∃ q, state.default.next ⟨16, -1, 11⟩ = some q ∧ (q.is_end ≠ 0 ↔ 0 ≤ (16 : Int) ∧
        (state.default.enemy_pieces_on_board piece_type.lion).testBit
          (11 : Int).toNat = true) :=
  ⟨by decide, by decide, by decide,
    royal_capture_terminal state.default (by decide) (by decide) ⟨16, -1, 11⟩ (by decide)⟩


set_option maxRecDepth 1000000 in
theorem control_table : ∀ k : Fin 6, ∀ s < 30, ∀ t < 30,
    (control k s).testBit t = decide (reaches k s t) := by
  decide

/-- C18. Movement patterns never wrap around board edges: for every kind `k` and
square `s` in `0..29`, bit `t` of `control(k, s)` is set exactly when `t` is a board
square other than `s` in an adjacent row and column whose step `(dcol, drow)` from
`s` belongs to the pattern of `k`. -/
theorem control_never_wraps (k : piece_type) (s : Nat) (hs : s < 30) (t : Nat) :
    (control k s).testBit t = true ↔ reaches k s t := by
  by_cases ht : t < 30
  · rw [control_table k s hs t ht, decide_eq_true_eq]
  · constructor
    · intro h
      exact absurd (lt_of_testBit (control_lt k s) h) ht
    · intro h
      exact absurd h.1 ht

theorem control_never_wraps_witness :
    (12 : Nat) < 30 ∧ ((control piece_type.cat 12).testBit 6 = true ↔
      reaches piece_type.cat 12 6) :=
  ⟨by decide, control_never_wraps piece_type.cat 12 (by decide) 6⟩


/-! ## Search -/

open alpha_beta

/-- C13. `evaluate` is the board difference plus the hand difference with the weights
100, 1000, 1200 (chick, cat, dog on board and in hand) and 1200 for chicken and
power-up cat on board; the lion counts for nothing: replacing either lion bitset or
either lion hand count leaves the value unchanged. -/
theorem evaluate_formula (p : state) :
    evaluate p =
      (((popcnt_u32 (p.pieces_on_board 0) : Int) * 100 + popcnt_u32 (p.pieces_on_board 1) * 1000 +
          popcnt_u32 (p.pieces_on_board 2) * 1200 + popcnt_u32 (p.pieces_on_board 4) * 1200 +
          popcnt_u32 (p.pieces_on_board 5) * 1200) -
        ((popcnt_u32 (p.enemy_pieces_on_board 0) : Int) * 100 +
          popcnt_u32 (p.enemy_pieces_on_board 1) * 1000 +
          popcnt_u32 (p.enemy_pieces_on_board 2) * 1200 +
          popcnt_u32 (p.enemy_pieces_on_board 4) * 1200 +
          popcnt_u32 (p.enemy_pieces_on_board 5) * 1200)) +
      ((p.piece_counts_in_hand 0 * 100 + p.piece_counts_in_hand 1 * 1000 +
          p.piece_counts_in_hand 2 * 1200) -
        (p.enemy_piece_counts_in_hand 0 * 100 + p.enemy_piece_counts_in_hand 1 * 1000 +
          p.enemy_piece_counts_in_hand 2 * 1200)) ∧
    (∀ x : Nat, evaluate ⟨Function.update p.pieces_on_board 3 x, p.piece_counts_in_hand,
      p.enemy_pieces_on_board, p.enemy_piece_counts_in_hand⟩ = evaluate p) ∧
    (∀ x : Nat, evaluate ⟨p.pieces_on_board, p.piece_counts_in_hand,
      Function.update p.enemy_pieces_on_board 3 x, p.enemy_piece_counts_in_hand⟩ = evaluate p) ∧
    (∀ x : Int, evaluate ⟨p.pieces_on_board, Function.update p.piece_counts_in_hand 3 x,
      p.enemy_pieces_on_board, p.enemy_piece_counts_in_hand⟩ = evaluate p) ∧
    (∀ x : Int, evaluate ⟨p.pieces_on_board, p.piece_counts_in_hand,
      p.enemy_pieces_on_board, Function.update p.enemy_piece_counts_in_hand 3 x⟩ =
      evaluate p) := by
  have h0 : piece_type.chick = 0 := rfl
  have h1 : piece_type.cat = 1 := rfl
  have h2 : piece_type.dog = 2 := rfl
  have h4 : piece_type.chicken = 4 := rfl
  have h5 : piece_type.power_up_cat = 5 := rfl
  have n0 : piece_type.chick ≠ 3 := by decide
  have n1 : piece_type.cat ≠ 3 := by decide
  have n2 : piece_type.dog ≠ 3 := by decide
  have n4 : piece_type.chicken ≠ 3 := by decide
  have n5 : piece_type.power_up_cat ≠ 3 := by decide
  have m0 : (0 : Fin 4) ≠ 3 := by decide
  have m1 : (1 : Fin 4) ≠ 3 := by decide
  have m2 : (2 : Fin 4) ≠ 3 := by decide
  refine ⟨?_, fun x => ?_, fun x => ?_, fun x => ?_, fun x => ?_⟩
  · simp only [evaluate, board_score, hand_score, h0, h1, h2, h4, h5]
    ring
  · simp only [evaluate, board_score, Function.update_noteq n0,
      Function.update_noteq n1, Function.update_noteq n2, Function.update_noteq n4,
      Function.update_noteq n5]
  · simp only [evaluate, board_score, Function.update_noteq n0,
      Function.update_noteq n1, Function.update_noteq n2, Function.update_noteq n4,
      Function.update_noteq n5]
  · simp only [evaluate, hand_score, Function.update_noteq m0, Function.update_noteq m1,
      Function.update_noteq m2]
  · simp only [evaluate, hand_score, Function.update_noteq m0, Function.update_noteq m1,
      Function.update_noteq m2]

/-- C14. Terminal scoring: on a position whose enemy hand holds a lion, with the
deadline not passed at the clock test of the call, `score` returns -100000 after
that single test, for every depth, window and board. -/
theorem terminal_score (expired : Nat → Bool) (p : state) (depth : Nat) (alpha beta : Int)
    (tick : Nat) (hend : p.enemy_piece_counts_in_hand 3 ≠ 0) (hclock : expired tick = false) :
    score expired depth p alpha beta tick = some (-100000, tick + 1) := by
  have h : p.is_end ≠ 0 := hend
  cases depth with
  | zero => simp only [score, hclock, Bool.false_eq_true, if_false, if_pos h]
  | succ d => simp only [score, hclock, Bool.false_eq_true, if_false, if_pos h]

theorem terminal_score_witness :
    chick_in_hand_state.piece_counts_in_hand 0 ≠ 0 ∧
      score (fun _ => false) 7
        ⟨chick_in_hand_state.enemy_pieces_on_board, chick_in_hand_state.enemy_piece_counts_in_hand,
         chick_in_hand_state.pieces_on_board, arr4 [0, 0, 0, 1]⟩ (-1000000) 1000000 0 =
        some (-100000, 1) :=
  ⟨by decide, terminal_score (fun _ => false) _ 7 (-1000000) 1000000 0 (by decide) rfl⟩


theorem capture_loop_some (tb : Nat) (e : Fin 6 → Nat) (h : Fin 4 → Int) (l : List (Fin 6)) :
    ∃ e2 h2, capture_loop tb l e h = some (e2, h2) := by
  induction l with
  | nil => exact ⟨e, h, rfl⟩
  | cons i rest ih =>
    by_cases hi : e i &&& tb ≠ 0
    · refine ⟨Function.update e i (e i &&& not32 tb),
        Function.update h ⟨(demoted i).val, demoted_lt i⟩
          (h ⟨(demoted i).val, demoted_lt i⟩ + 1), ?_⟩
      simp only [capture_loop, if_pos hi, dif_pos (demoted_lt i)]
    · obtain ⟨e2, h2, hc⟩ := ih
      exact ⟨e2, h2, by simp only [capture_loop, if_neg hi, hc]⟩

/-- Every generated action of a position of 32-bit words has a successor, again of
32-bit words. -/
theorem next_word32 (p : state) (hp : p.word32) (a : action) (ha : a ∈ p.actions) :
    ∃ q, p.next a = some q ∧ q.word32 := by
  obtain ⟨hs, he⟩ := hp
  have hf : ∀ x, flip x < 2 ^ 32 := fun x => lt32_of_lt30 (flip_lt x)
  rcases (mem_actions_iff p a).mp ha with h | h | h
  · obtain ⟨i, sq, t, h1, h2, _, rfl⟩ := (mem_move_actions p hs a).mp h
    have hsq : sq < 32 := lt_of_testBit (hs i) h1
    have ht : t < 32 := lt_trans (lt_of_testBit (control_lt i sq) h2) (by norm_num)
    obtain ⟨e2, h2, hc⟩ := capture_loop_some (1 <<< t) p.enemy_pieces_on_board
      p.piece_counts_in_hand (List.finRange 6)
    exact ⟨_, next_of_capture p sq t hsq ht e2 h2 hc, fun i => hf _, fun i => hf _⟩
  · obtain ⟨_, t, h1, _, _, _, rfl⟩ := (mem_chick_drop_actions p hs he a).mp h
    exact ⟨_, next_drop p 0 t (by omega), fun i => hf _, fun i => hf _⟩
  · obtain ⟨k, t, _, _, h1, _, _, rfl⟩ := (mem_other_drop_actions p hs he a).mp h
    exact ⟨_, next_drop p k t (by omega), fun i => hf _, fun i => hf _⟩

theorem le_foldl_max (l : List Int) (a : Int) : a ≤ l.foldl max a := by
  induction l generalizing a with
  | nil => exact le_refl a
  | cons x rest ih => exact le_trans (le_max_left a x) (ih (max a x))

theorem foldl_max_eq (l : List Int) (a b : Int) (hab : b ≤ a) :
    l.foldl max a = max a (l.foldl max b) := by
  induction l generalizing a b with
  | nil => simp [hab]
  | cons x rest ih =>
    simp only [List.foldl_cons]
    rw [ih (max a x) (max b x) (max_le_max hab (le_refl x))]
    have h1 := le_foldl_max rest (max b x)
    have h2 : b ≤ max b x := le_max_left b x
    have h3 : x ≤ max b x := le_max_right b x
    rcases le_total a x with h | h
    · rw [max_eq_right h]
      rw [max_eq_right (le_trans h3 h1), max_eq_right (le_trans (le_trans h h3) h1)]
    · rw [max_eq_left h]

theorem negamax_succ (d : Nat) (s : state) (h : s.is_end = 0) :
    negamax (d + 1) s = (s.actions.map fun a =>
      (s.next a).elim (-1000000) fun q => -negamax d q).foldl max (-1000000) := by
  simp [negamax, h]


theorem score_loop_spec (child : state → Int → Int → Nat → Option (Int × Nat)) (d : Nat)
    (p : state) (beta : Int) (hb : beta ≤ 1000000) (hchild : sound_at child d)
    (hp : p.word32) :
    ∀ l : List action, (∀ a ∈ l, a ∈ p.actions) → ∀ (alpha : Int) (tick : Nat),
      -1000000 ≤ alpha → alpha < beta →
      ∃ r t, score_loop child p l alpha beta tick = some (r, t) ∧
        ((l.map fun a => (p.next a).elim (-1000000) fun q => -negamax d q).foldl max alpha < beta →
          r = (l.map fun a => (p.next a).elim (-1000000) fun q => -negamax d q).foldl max alpha) ∧
        (beta ≤ (l.map fun a => (p.next a).elim (-1000000) fun q => -negamax d q).foldl max alpha →
          beta ≤ r) := by
  intro l
  induction l with
  | nil =>
    intro _ alpha tick _ hab
    exact ⟨alpha, tick, rfl, fun _ => rfl, fun h => h⟩
  | cons a rest ih =>
    intro hl alpha tick ha hab
    obtain ⟨q, hq, hqb⟩ := next_word32 p hp a (hl a (List.mem_cons_self a rest))
    obtain ⟨r1, t1, hr, c1, c2, c3⟩ := hchild q hqb (-beta) (-alpha) tick (by omega) (by omega)
      (by omega)
    have hrest : ∀ b ∈ rest, b ∈ p.actions := fun b hb => hl b (List.mem_cons_of_mem a hb)
    simp only [score_loop, hq, hr, List.map_cons, List.foldl_cons, Option.elim]
    rcases lt_trichotomy (negamax d q) (-beta) with h | h | h
    · -- the child fails low: cutoff
      have h1 : r1 ≤ -beta := c1 (le_of_lt h)
      have h2 : -r1 > alpha := by omega
      have h3 : -r1 ≥ beta := by omega
      rw [if_pos h2, if_pos h3]
      have hge := le_foldl_max (rest.map fun a => (p.next a).elim (-1000000) fun q => -negamax d q)
        (max alpha (-negamax d q))
      have hmx : beta ≤ max alpha (-negamax d q) := le_trans (by omega) (le_max_right _ _)
      exact ⟨-r1, t1, rfl, fun hlt => absurd (le_trans hmx hge) (not_le.mpr hlt), fun _ => h3⟩
    · have h1 : r1 ≤ -beta := c1 (le_of_eq h)
      have h2 : -r1 > alpha := by omega
      have h3 : -r1 ≥ beta := by omega
      rw [if_pos h2, if_pos h3]
      have hge := le_foldl_max (rest.map fun a => (p.next a).elim (-1000000) fun q => -negamax d q)
        (max alpha (-negamax d q))
      have hmx : beta ≤ max alpha (-negamax d q) := le_trans (by omega) (le_max_right _ _)
      exact ⟨-r1, t1, rfl, fun hlt => absurd (le_trans hmx hge) (not_le.mpr hlt), fun _ => h3⟩
    · rcases lt_or_le (negamax d q) (-alpha) with h4 | h4
      · -- the child value is inside the window: alpha rises to it
        have h1 : r1 = negamax d q := c2 h h4
        have h2 : -r1 > alpha := by omega
        have h3 : ¬ -r1 ≥ beta := by omega
        rw [if_pos h2, if_neg h3, h1, max_eq_right (by omega : alpha ≤ -negamax d q)]
        exact ih hrest (-negamax d q) t1 (by omega) (by omega)
      · -- the child fails high: alpha stays
        have h1 : -alpha ≤ r1 := c3 h4
        have h2 : ¬ -r1 > alpha := by omega
        have h3 : ¬ alpha ≥ beta := by omega
        rw [if_neg h2, if_neg h3, max_eq_left (by omega : -negamax d q ≤ alpha)]
        exact ih hrest alpha t1 ha hab

theorem score_terminal (d : Nat) (q : state) (alpha beta : Int) (tick : Nat)
    (he : q.is_end ≠ 0) :
    score (fun _ => false) d q alpha beta tick = some (-100000, tick + 1) ∧
      negamax d q = -100000 := by
  cases d with
  | zero =>
    exact ⟨by simp only [score, Bool.false_eq_true, if_false, if_pos he],
      by simp only [negamax, if_pos he]⟩
  | succ d =>
    exact ⟨by simp only [score, Bool.false_eq_true, if_false, if_pos he],
      by simp only [negamax, if_pos he]⟩

/-- With a clock that never expires, `score` is sound at every depth. -/
theorem score_sound (d : Nat) : sound_at (score (fun _ => false) d) d := by
  induction d with
  | zero =>
    intro q _ alpha beta tick _ _ _
    by_cases he : q.is_end ≠ 0
    · obtain ⟨h1, h2⟩ := score_terminal 0 q alpha beta tick he
      rw [h2]
      exact ⟨-100000, tick + 1, h1, fun h => h, fun _ _ => rfl, fun h => h⟩
    · have h2 : negamax 0 q = evaluate q := by simp only [negamax, if_neg he]
      rw [h2]
      exact ⟨evaluate q, tick + 1,
        by simp only [score, Bool.false_eq_true, if_false, if_neg he],
        fun h => h, fun _ _ => rfl, fun h => h⟩
  | succ d ih =>
    intro q hq alpha beta tick ha hab hb
    by_cases he : q.is_end ≠ 0
    · obtain ⟨h1, h2⟩ := score_terminal (d + 1) q alpha beta tick he
      rw [h2]
      exact ⟨-100000, tick + 1, h1, fun h => h, fun _ _ => rfl, fun h => h⟩
    · obtain ⟨r, t, hr, c1, c2⟩ := score_loop_spec (score (fun _ => false) d) d q beta hb ih hq
        q.actions (fun a h => h) alpha (tick + 1) ha hab
      refine ⟨r, t, by simp only [score, Bool.false_eq_true, if_false, if_neg he, hr], ?_⟩
      have hv := negamax_succ d q (by simpa using he)
      rw [foldl_max_eq _ alpha (-1000000) ha, ← hv] at c1 c2
      refine ⟨fun h => ?_, fun h1 h2 => ?_, fun h => ?_⟩
      · rw [max_eq_left h] at c1
        exact le_of_eq (c1 hab)
      · rw [max_eq_right (le_of_lt h1)] at c1
        exact c1 h2
      · exact c2 (le_trans h (le_max_right _ _))


/-- C20. Alpha-beta pruning agrees with unpruned negamax: with a clock that never
expires, for every position of 32-bit words, every depth and every window with
`-1000000 ≤ alpha < beta ≤ 1000000`, `score` returns a value that equals the negamax
value `v` when `alpha < v < beta`, is at most `alpha` when `v ≤ alpha`, and at least
`beta` when `v ≥ beta`. -/
theorem alpha_beta_agrees (p : state) (hp : p.word32) (d : Nat) (alpha beta : Int) (tick : Nat)
    (h1 : -1000000 ≤ alpha) (h2 : alpha < beta) (h3 : beta ≤ 1000000) :
    ∃ r t, score (fun _ => false) d p alpha beta tick = some (r, t) ∧
      (alpha < negamax d p → negamax d p < beta → r = negamax d p) ∧
      (negamax d p ≤ alpha → r ≤ alpha) ∧
      (beta ≤ negamax d p → beta ≤ r) := by
  obtain ⟨r, t, hr, c1, c2, c3⟩ := score_sound d p hp alpha beta tick h1 h2 h3
  exact ⟨r, t, hr, c2, c1, c3⟩

theorem alpha_beta_agrees_witness :
    state.default.word32 ∧ ∃ r t, score (fun _ => false) 0 state.default (-1000000) 1000000 0 =
      some (r, t) ∧ (-1000000 < negamax 0 state.default → negamax 0 state.default < 1000000 →
        r = negamax 0 state.default) := by
  refine ⟨by decide, ?_⟩
  obtain ⟨r, t, hr, c, _⟩ := alpha_beta_agrees state.default (by decide) 0 (-1000000) 1000000 0
    (by decide) (by decide) (by decide)
  exact ⟨r, t, hr, c⟩

theorem root_value_eq (p : state) (a : action) (q : state) (hq : p.next a = some q) :
    root_value p a = -negamax 7 q := by
  simp only [root_value, hq, Option.elim]

/-- The root loop with a clock that never expires keeps the first action whose
score exceeds `alpha` and every earlier kept score. -/
theorem root_loop_spec (p : state) (hp : p.word32) :
    ∀ l : List action, (∀ a ∈ l, a ∈ p.actions) →
      (∀ a ∈ l, -1000000 < root_value p a ∧ root_value p a < 1000000) →
      ∀ (alpha : Int) (result : action) (tick : Nat), -1000000 ≤ alpha → alpha < 1000000 →
      ∃ res al t, root_loop (fun _ => false) p l alpha result tick = some (res, al, t) ∧
        ((∀ b ∈ l, root_value p b ≤ alpha) → res = result) ∧
        ((∃ b ∈ l, alpha < root_value p b) →
          ∃ l1 l2, l = l1 ++ res :: l2 ∧ alpha < root_value p res ∧
            (∀ b ∈ l1, root_value p b < root_value p res) ∧
            (∀ b ∈ l2, root_value p b ≤ root_value p res)) := by
  intro l
  induction l with
  | nil =>
    intro _ _ alpha result tick _ _
    exact ⟨result, alpha, tick, rfl, fun _ => rfl, fun ⟨b, hb, _⟩ => absurd hb (List.not_mem_nil b)⟩
  | cons a rest ih =>
    intro hl hv alpha result tick ha1 ha2
    obtain ⟨q, hq, hqw⟩ := next_word32 p hp a (hl a (List.mem_cons_self a rest))
    have hva := hv a (List.mem_cons_self a rest)
    rw [root_value_eq p a q hq] at hva
    obtain ⟨r, t1, hr, c1, c2, c3⟩ := score_sound 7 q hqw (-1000000) (-alpha) tick (le_refl _)
      (by omega) (by omega)
    have hrest : ∀ b ∈ rest, b ∈ p.actions := fun b hb => hl b (List.mem_cons_of_mem a hb)
    have hvrest : ∀ b ∈ rest, -1000000 < root_value p b ∧ root_value p b < 1000000 :=
      fun b hb => hv b (List.mem_cons_of_mem a hb)
    simp only [root_loop, hq, hr]
    by_cases hlt : negamax 7 q < -alpha
    · -- the action improves on alpha and is kept
      have e : r = negamax 7 q := c2 (by omega) hlt
      have h2 : -r > alpha := by omega
      rw [if_pos h2, e]
      obtain ⟨res, al, t, hrun, k1, k2⟩ := ih hrest hvrest (-negamax 7 q) a t1 (by omega)
        (by omega)
      refine ⟨res, al, t, hrun, fun hall => ?_, fun _ => ?_⟩
      · have := hall a (List.mem_cons_self a rest)
        rw [root_value_eq p a q hq] at this
        omega
      · by_cases hex : ∃ b ∈ rest, -negamax 7 q < root_value p b
        · obtain ⟨l1, l2, hsplit, g1, g2, g3⟩ := k2 hex
          refine ⟨a :: l1, l2, by rw [hsplit]; rfl, by omega, ?_, g3⟩
          intro b hb
          rcases List.mem_cons.mp hb with rfl | hb
          · rw [root_value_eq p b q hq]; exact g1
          · exact g2 b hb
        · have hall : ∀ b ∈ rest, root_value p b ≤ -negamax 7 q := by
            intro b hb
            by_contra hc
            exact hex ⟨b, hb, not_le.mp hc⟩
          have e2 : res = a := k1 hall
          subst e2
          refine ⟨[], rest, rfl, ?_, fun b hb => absurd hb (List.not_mem_nil b), ?_⟩
          · rw [root_value_eq p res q hq]; omega
          · intro b hb
            rw [root_value_eq p res q hq]
            exact hall b hb
    · -- the action does not improve on alpha
      have h1 : -alpha ≤ r := c3 (not_lt.mp hlt)
      have h2 : ¬ -r > alpha := by omega
      rw [if_neg h2]
      obtain ⟨res, al, t, hrun, k1, k2⟩ := ih hrest hvrest alpha result t1 ha1 ha2
      have hle : root_value p a ≤ alpha := by
        rw [root_value_eq p a q hq]; omega
      refine ⟨res, al, t, hrun, fun hall => ?_, fun hex => ?_⟩
      · exact k1 fun b hb => hall b (List.mem_cons_of_mem a hb)
      · obtain ⟨b, hb, hbv⟩ := hex
        have hex2 : ∃ b ∈ rest, alpha < root_value p b := by
          rcases List.mem_cons.mp hb with rfl | hb
          · omega
          · exact ⟨b, hb, hbv⟩
        obtain ⟨l1, l2, hsplit, g1, g2, g3⟩ := k2 hex2
        refine ⟨a :: l1, l2, by rw [hsplit]; rfl, g1, ?_, g3⟩
        intro c hc
        rcases List.mem_cons.mp hc with rfl | hc
        · omega
        · exact g2 c hc

/-- C15. Top-level choice with deterministic tie-break: with a clock that never
expires, on a position with at least one action whose root scores (the negated
7-ply negamax values of the successors) all lie strictly between -1000000 and
1000000, `operator()` returns the first action in generator order of maximal score:
every earlier action scores strictly less, every later one at most as much. -/
theorem top_level_choice (p : state) (hp : p.word32) (hne : p.actions ≠ [])
    (hv : ∀ a ∈ p.actions, -1000000 < root_value p a ∧ root_value p a < 1000000) :
    ∃ a l1 l2, call (fun _ => false) p = some a ∧ p.actions = l1 ++ a :: l2 ∧
      (∀ b ∈ l1, root_value p b < root_value p a) ∧
      (∀ b ∈ l2, root_value p b ≤ root_value p a) := by
  obtain ⟨res, al, t, hrun, _, k2⟩ := root_loop_spec p hp p.actions (fun a h => h) hv
    (-1000000) action.default 0 (le_refl _) (by decide)
  obtain ⟨b, hb⟩ := List.exists_mem_of_ne_nil p.actions hne
  obtain ⟨l1, l2, hsplit, _, g2, g3⟩ := k2 ⟨b, hb, (hv b hb).1⟩
  exact ⟨res, l1, l2, by simp only [call, hrun, Option.map], hsplit, g2, g3⟩

theorem top_level_choice_witness :
    lion_in_hand_state.word32 ∧ lion_in_hand_state.actions ≠ [] ∧
      ∃ a l1 l2, call (fun _ => false) lion_in_hand_state = some a ∧
        lion_in_hand_state.actions = l1 ++ a :: l2 ∧
        (∀ b ∈ l1, root_value lion_in_hand_state b < root_value lion_in_hand_state a) ∧
        (∀ b ∈ l2, root_value lion_in_hand_state b ≤ root_value lion_in_hand_state a) :=
  ⟨by decide, by decide,
    top_level_choice lion_in_hand_state (by decide) (by decide) (by decide)⟩


theorem score_expired (expired : Nat → Bool) (d : Nat) (q : state) (alpha beta : Int)
    (tick : Nat) (h : expired tick = true) :
    score expired d q alpha beta tick = some (alpha, tick + 1) := by
  cases d with
  | zero => simp only [score, h, if_true]
  | succ d => simp only [score, h, if_true]

/-- Once the deadline has passed and `alpha` has reached 1000000, the root loop
keeps its action. -/
theorem root_loop_late (expired : Nat → Bool) (p : state) (hp : p.word32) (n : Nat)
    (hlate : ∀ m, n ≤ m → expired m = true) :
    ∀ l : List action, (∀ a ∈ l, a ∈ p.actions) → ∀ (alpha : Int) (result : action) (tick : Nat),
      1000000 ≤ alpha → n ≤ tick →
      root_loop expired p l alpha result tick = some (result, alpha, tick + l.length) := by
  intro l
  induction l with
  | nil => intro _ alpha result tick _ _; rfl
  | cons a rest ih =>
    intro hl alpha result tick ha ht
    obtain ⟨q, hq, _⟩ := next_word32 p hp a (hl a (List.mem_cons_self a rest))
    have h2 : ¬ -(-1000000 : Int) > alpha := by omega
    simp only [root_loop, hq, score_expired expired 7 q _ _ tick (hlate tick ht), if_neg h2]
    rw [ih (fun b hb => hl b (List.mem_cons_of_mem a hb)) alpha result (tick + 1) ha (by omega)]
    simp only [List.length_cons]
    congr 3
    omega

/-- The first root action searched after the deadline is kept, unless `alpha` has
already reached 1000000. -/
theorem root_loop_deadline (expired : Nat → Bool) (p : state) (hp : p.word32) (n : Nat)
    (hlate : ∀ m, n ≤ m → expired m = true) (a : action) (rest : List action)
    (hl : ∀ b ∈ a :: rest, b ∈ p.actions) (alpha : Int) (result : action) (tick : Nat)
    (ht : n ≤ tick) :
    ∃ al t, root_loop expired p (a :: rest) alpha result tick =
      some (if alpha < 1000000 then a else result, al, t) := by
  obtain ⟨q, hq, _⟩ := next_word32 p hp a (hl a (List.mem_cons_self a rest))
  have hrest : ∀ b ∈ rest, b ∈ p.actions := fun b hb => hl b (List.mem_cons_of_mem a hb)
  simp only [root_loop, hq, score_expired expired 7 q _ _ tick (hlate tick ht)]
  by_cases ha : alpha < 1000000
  · have h2 : -(-1000000 : Int) > alpha := by omega
    rw [if_pos h2, if_pos ha,
      root_loop_late expired p hp n hlate rest hrest _ a (tick + 1) (by norm_num) (by omega)]
    exact ⟨_, _, rfl⟩
  · have h2 : ¬ -(-1000000 : Int) > alpha := by omega
    rw [if_neg h2, if_neg ha,
      root_loop_late expired p hp n hlate rest hrest alpha result (tick + 1) (by omega)
        (by omega)]
    exact ⟨_, _, rfl⟩

theorem root_loop_append (expired : Nat → Bool) (p : state) (l2 : List action) :
    ∀ (l1 : List action) (alpha : Int) (result : action) (tick : Nat),
      root_loop expired p (l1 ++ l2) alpha result tick =
        (root_loop expired p l1 alpha result tick).bind fun x =>
          root_loop expired p l2 x.2.1 x.1 x.2.2 := by
  intro l1
  induction l1 with
  | nil => intro alpha result tick; rfl
  | cons a rest ih =>
    intro alpha result tick
    simp only [List.cons_append, root_loop]
    cases p.next a with
    | none => rfl
    | some q =>
      simp only
      cases score expired 7 q (-1000000) (-alpha) tick with
      | none => rfl
      | some x =>
        simp only
        split
        · exact ih _ _ _
        · exact ih _ _ _

/-- C16, defect of the code. With a clock that reports the deadline as passed at
every test, nothing is searched, yet `operator()` on the starting layout returns its
first generated action `(16, -1, 11)` and not the default action: the timed-out
`score` returns its `alpha` = -1000000, which the root negates to 1000000 and takes
for an improvement. -/
theorem deadline_passed_returns_first :
    call (fun _ => true) state.default = some ⟨16, -1, 11⟩ ∧
      call (fun _ => true) state.default ≠ some action.default := by
  decide

/-- The defect in general: if every clock test sees the deadline as passed, the
unsearched first generated action is taken for an improvement and returned; the
default action is returned only when no action is generated. -/
theorem deadline_passed_choice (expired : Nat → Bool) (p : state) (hp : p.word32)
    (hpassed : ∀ n, expired n = true) :
    call expired p = some (p.actions.headD action.default) := by
  unfold call
  cases hl : p.actions with
  | nil => rfl
  | cons a rest =>
    obtain ⟨al, t, h⟩ := root_loop_deadline expired p hp 0 (fun m _ => hpassed m) a rest
      (by rw [← hl]; exact fun b hb => hb) (-1000000) action.default 0 (le_refl 0)
    rw [h]
    rfl

/-- C17, defect of the code. On the sample position the first root action (chick
takes lion) is searched with one clock test and kept with score 100000; with the
deadline passed from the second test on, `operator()` returns the unsearched second
root action `(27, -1, 21)` instead of `(7, -1, 2)`, the best action found among the
first one (the result when only that action is searched to completion). -/
theorem deadline_discards_best :
    2 ≤ lion_capture_state.actions.length ∧
      root_loop (fun n => decide (1 ≤ n)) lion_capture_state
        (lion_capture_state.actions.take 1) (-1000000) action.default 0 =
        some (⟨7, -1, 2⟩, 100000, 1) ∧
      root_loop (fun _ => false) lion_capture_state
        (lion_capture_state.actions.take 1) (-1000000) action.default 0 =
        some (⟨7, -1, 2⟩, 100000, 1) ∧
      call (fun n => decide (1 ≤ n)) lion_capture_state = some ⟨27, -1, 21⟩ := by
  decide

/-- The defect in general: if the first `k` root actions `l1` are searched with
result `(res, al, n)` and the deadline is passed at every clock test from the `n`-th
on, the unsearched next root action `a` replaces the best action `res` found so far;
`res` survives only when `alpha` has already reached 1000000. -/
theorem deadline_after_prefix (expired : Nat → Bool) (p : state) (hp : p.word32)
    (l1 : List action) (a : action) (l2 : List action) (hsplit : p.actions = l1 ++ a :: l2)
    (res : action) (al : Int) (n : Nat)
    (hrun : root_loop expired p l1 (-1000000) action.default 0 = some (res, al, n))
    (hlate : ∀ m, n ≤ m → expired m = true) :
    call expired p = some (if al < 1000000 then a else res) := by
  have hl : ∀ b ∈ a :: l2, b ∈ p.actions := by
    intro b hb
    rw [hsplit]
    exact List.mem_append_right l1 hb
  obtain ⟨al2, t, h⟩ := root_loop_deadline expired p hp n hlate a l2 hl al res n (le_refl n)
  unfold call
  rw [hsplit, root_loop_append, hrun]
  simp only [Option.bind]
  rw [h]
  rfl

/-! ## The action buffer and the chick column rule -/

set_option maxRecDepth 1000000 in
theorem length_neighbour_pairs : neighbour_pairs.length = 178 := by
  decide

theorem mem_neighbour_pairs (s t : Nat) :
    (s, t) ∈ neighbour_pairs ↔ s < 30 ∧ (control piece_type.lion s).testBit t = true := by
  unfold neighbour_pairs
  simp only [List.mem_flatMap, List.mem_range, List.mem_map, Prod.mk.injEq]
  constructor
  · rintro ⟨s2, hs, t2, ht, rfl, rfl⟩
    exact ⟨hs, (mem_bit_loop _ (lt32_of_lt30 (control_lt _ _)) _).mp ht⟩
  · rintro ⟨hs, ht⟩
    exact ⟨s, hs, t, (mem_bit_loop _ (lt32_of_lt30 (control_lt _ _)) _).mpr ht, rfl, rfl⟩

theorem step_pattern_subset : ∀ k : Fin 6, ∀ x ∈ step_pattern k, x ∈ step_pattern piece_type.lion := by
  decide

theorem control_subset_lion (k : piece_type) (s t : Nat) (hs : s < 30)
    (h : (control k s).testBit t = true) : (control piece_type.lion s).testBit t = true := by
  have ht : t < 30 := lt_of_testBit (control_lt k s) h
  rw [control_table k s hs t ht, decide_eq_true_eq] at h
  rw [control_table _ s hs t ht, decide_eq_true_eq]
  obtain ⟨h1, h2, h3, h4, h5, h6, h7⟩ := h
  exact ⟨h1, h2, h3, h4, h5, h6, step_pattern_subset k _ h7⟩

theorem length_le_of_nodup_subset {α : Type} (l m : List α) (hl : l.Nodup) (h : l ⊆ m) :
    l.length ≤ m.length :=
  (List.subperm_of_subset hl h).length_le

theorem length_move_actions (p : state) (hw : p.well_formed) : p.move_actions.length ≤ 178 := by
  obtain ⟨⟨b1, _, _, _, _⟩, _, _⟩ := (well_formed_iff p).mp hw
  have hs : ∀ i, p.pieces_on_board i < 2 ^ 32 := fun i => lt32_of_lt30 (b1 i)
  rw [← length_neighbour_pairs, ← List.length_map neighbour_pairs
    (fun x : Nat × Nat => (⟨(x.1 : Int), -1, (x.2 : Int)⟩ : action))]
  apply length_le_of_nodup_subset _ _ (nodup_move_actions p hw)
  intro a ha
  obtain ⟨i, sq, t, h1, h2, _, rfl⟩ := (mem_move_actions p hs a).mp ha
  have hsq : sq < 30 := lt_of_testBit (b1 i) h1
  exact List.mem_map.mpr ⟨(sq, t),
    (mem_neighbour_pairs sq t).mpr ⟨hsq, control_subset_lion i sq t hsq h2⟩, rfl⟩

theorem length_chick_drop_actions (p : state) (hw : p.well_formed) :
    p.chick_drop_actions.length ≤ 25 := by
  obtain ⟨⟨b1, b2, _, _, _⟩, _, _⟩ := (well_formed_iff p).mp hw
  have hs : ∀ i, p.pieces_on_board i < 2 ^ 32 := fun i => lt32_of_lt30 (b1 i)
  have he : ∀ i, p.enemy_pieces_on_board i < 2 ^ 32 := fun i => lt32_of_lt30 (b2 i)
  have e : ((List.range' 5 25).map
      (fun t : Nat => (⟨-1, 0, (t : Int)⟩ : action))).length = 25 := by
    rw [List.length_map, List.length_range']
  rw [← e]
  apply length_le_of_nodup_subset _ _ (nodup_chick_drop_actions p)
  intro a ha
  obtain ⟨_, t, h1, _, _, h4, rfl⟩ := (mem_chick_drop_actions p hs he a).mp ha
  have h5 := ((testBit_chick_allowed p (b1 _) t h1).mp h4).1
  exact List.mem_map.mpr ⟨t, List.mem_range'.mpr ⟨t - 5, by omega, by omega⟩, rfl⟩

/-- With two occupied squares the drop mask has at most 28 set bits. -/
theorem length_drop_targets (p : state) (hw : p.well_formed) (s1 s2 : Nat) (hne : s1 ≠ s2)
    (h1 : p.occupied s1) (h2 : p.occupied s2) :
    (bit_loop 32 (board_bits &&& not32 (accumulate_or p.pieces_on_board) &&&
      not32 (accumulate_or p.enemy_pieces_on_board))).length ≤ 28 := by
  obtain ⟨⟨b1, b2, _, _, _⟩, _, _⟩ := (well_formed_iff p).mp hw
  have hs : ∀ i, p.pieces_on_board i < 2 ^ 32 := fun i => lt32_of_lt30 (b1 i)
  have he : ∀ i, p.enemy_pieces_on_board i < 2 ^ 32 := fun i => lt32_of_lt30 (b2 i)
  have hlt : ∀ n, p.occupied n → n < 30 := by
    rintro n ⟨i, h | h⟩
    · exact lt_of_testBit (b1 i) h
    · exact lt_of_testBit (b2 i) h
  have hvac : ∀ n t, p.occupied n →
      ((∀ i, (p.pieces_on_board i).testBit t = false) ∧
        (∀ i, (p.enemy_pieces_on_board i).testBit t = false)) → t ≠ n := by
    rintro n t ⟨i, h | h⟩ ⟨v1, v2⟩ rfl
    · rw [v1 i] at h; exact Bool.false_ne_true h
    · rw [v2 i] at h; exact Bool.false_ne_true h
  have m1 : s1 ∈ List.range 30 := List.mem_range.mpr (hlt s1 h1)
  have m2 : s2 ∈ (List.range 30).erase s1 :=
    (List.mem_erase_of_ne (Ne.symm hne)).mpr (List.mem_range.mpr (hlt s2 h2))
  have e : (((List.range 30).erase s1).erase s2).length = 28 := by
    rw [List.length_erase_of_mem m2, List.length_erase_of_mem m1, List.length_range]
  rw [← e]
  apply length_le_of_nodup_subset _ _ (nodup_bit_loop _ (drop_mask_lt _ _))
  intro t ht
  rw [mem_bit_loop _ (drop_mask_lt _ _), testBit_drop_mask p hs he] at ht
  rw [List.mem_erase_of_ne (hvac s2 t h2 ht.2), List.mem_erase_of_ne (hvac s1 t h1 ht.2)]
  exact List.mem_range.mpr ht.1

theorem length_other_drop_actions (p : state) (hw : p.well_formed) (s1 s2 : Nat)
    (hne : s1 ≠ s2) (h1 : p.occupied s1) (h2 : p.occupied s2) :
    p.other_drop_actions.length ≤ 56 := by
  have h := length_drop_targets p hw s1 s2 hne h1 h2
  unfold state.other_drop_actions
  simp only [List.flatMap_cons, List.flatMap_nil, List.append_nil, List.length_append]
  have hk : ∀ k : Fin 4, (if p.piece_counts_in_hand k ≠ 0 then
      (bit_loop 32 (board_bits &&& not32 (accumulate_or p.pieces_on_board) &&&
        not32 (accumulate_or p.enemy_pieces_on_board))).map
        fun (to_sq : Nat) => (⟨-1, (k.val : Int), (to_sq : Int)⟩ : action)
      else []).length ≤ 28 := by
    intro k
    split
    · rw [List.length_map]; exact h
    · exact Nat.zero_le _
  have a1 := hk 1
  have a2 := hk 2
  omega

/-- C21. The fixed action buffer never overflows: a well-formed position with at
least two occupied board squares generates at most 259 actions, the capacity
`4*3 + 14*5 + 12*8 + 1*25 + 2*28` of the vector the result is built in. -/
theorem actions_fit_buffer (p : state) (hw : p.well_formed) (s1 s2 : Nat) (hne : s1 ≠ s2)
    (h1 : p.occupied s1) (h2 : p.occupied s2) :
    p.actions.length ≤ actions_capacity ∧ actions_capacity = 259 := by
  have a := length_move_actions p hw
  have b := length_chick_drop_actions p hw
  have c := length_other_drop_actions p hw s1 s2 hne h1 h2
  have e : actions_capacity = 259 := by decide
  refine ⟨?_, e⟩
  rw [e]
  unfold state.actions
  rw [List.length_append, List.length_append]
  omega

theorem actions_fit_buffer_witness :
    state.default.well_formed ∧ state.default.occupied 2 ∧ state.default.occupied 27 ∧
      state.default.actions.length ≤ actions_capacity :=
  ⟨by decide, by decide, by decide,
    (actions_fit_buffer state.default (by decide) 2 27 (by decide) (by decide) (by decide)).1⟩


theorem not_occupied_iff (p : state) (t : Nat) :
    ¬ p.occupied t ↔ (∀ i, (p.pieces_on_board i).testBit t = false) ∧
      (∀ i, (p.enemy_pieces_on_board i).testBit t = false) := by
  unfold state.occupied
  constructor
  · intro h
    constructor
    · intro i
      by_contra hc
      exact h ⟨i, Or.inl (by simpa using hc)⟩
    · intro i
      by_contra hc
      exact h ⟨i, Or.inr (by simpa using hc)⟩
  · rintro ⟨h1, h2⟩ ⟨i, h | h⟩
    · rw [h1 i] at h; exact Bool.false_ne_true h
    · rw [h2 i] at h; exact Bool.false_ne_true h

/-- The column of `t` holds no own chick, said square by square and row by row. -/
theorem column_free_iff (c t : Nat) (hc : c < 2 ^ 30) (ht : c.testBit t = false) :
    (∀ sq, sq ≠ t → sq % 5 = t % 5 → c.testBit sq = false) ↔
      ∀ r, r < 6 → c.testBit (5 * r + t % 5) = false := by
  constructor
  · intro h r _
    by_cases e : 5 * r + t % 5 = t
    · rw [e]; exact ht
    · exact h _ e (by omega)
  · intro h sq _ hmod
    by_cases hsq : sq < 30
    · have e : sq = 5 * (sq / 5) + t % 5 := by omega
      rw [e]
      exact h (sq / 5) (by omega)
    · exact Nat.testBit_lt_two_pow
        (lt_of_lt_of_le hc (Nat.pow_le_pow_right (by norm_num) (by omega)))

/-- C22. Chick drops obey a one-chick-per-column rule: with at least one chick in the
own hand, a chick drop onto `t` is generated exactly when `t` is a board square
empty on both sides, below the top row, not the square in front of an enemy lion
(`t ≠ l + 5` for every enemy lion square `l`) and in a column (`t % 5`) none of
whose six squares holds an own chick; every chick drop targets such a square. -/
theorem chick_drop_column_rule (p : state) (hw : p.well_formed)
    (hh : 0 < p.piece_counts_in_hand 0) :
    (∀ t : Nat, (⟨-1, 0, (t : Int)⟩ : action) ∈ p.actions ↔
      t < 30 ∧ ¬ p.occupied t ∧ 5 ≤ t ∧
      (∀ l, (p.enemy_pieces_on_board piece_type.lion).testBit l = true → t ≠ l + 5) ∧
      (∀ r, r < 6 → (p.pieces_on_board piece_type.chick).testBit (5 * r + t % 5) = false)) ∧
    (∀ a ∈ p.actions, a.from_board = -1 → a.from_hand = 0 →
      ∃ t : Nat, t < 30 ∧ a = ⟨-1, 0, (t : Int)⟩) := by
  obtain ⟨⟨b1, b2, _, _, _⟩, _, _⟩ := (well_formed_iff p).mp hw
  have hs : ∀ i, p.pieces_on_board i < 2 ^ 32 := fun i => lt32_of_lt30 (b1 i)
  have he : ∀ i, p.enemy_pieces_on_board i < 2 ^ 32 := fun i => lt32_of_lt30 (b2 i)
  have hmem : ∀ a : action, (a ∈ p.actions ∧ a.from_board = -1 ∧ a.from_hand = 0) ↔
      a ∈ p.chick_drop_actions := by
    intro a
    constructor
    · rintro ⟨ha, hb, hf⟩
      rcases (mem_actions_iff p a).mp ha with h | h | h
      · have := from_board_of_mem_move p a h; omega
      · exact h
      · have := from_hand_of_mem_other_drop p a h; omega
    · intro h
      have := from_hand_of_mem_chick_drop p a h
      exact ⟨(mem_actions_iff p a).mpr (Or.inr (Or.inl h)), this.1, this.2⟩
  refine ⟨fun t => ?_, fun a ha hb hf => ?_⟩
  · have e : (⟨-1, 0, (t : Int)⟩ : action) ∈ p.actions ↔
        (⟨-1, 0, (t : Int)⟩ : action) ∈ p.chick_drop_actions :=
      ⟨fun h => (hmem _).mp ⟨h, rfl, rfl⟩, fun h => ((hmem _).mpr h).1⟩
    rw [e, mem_chick_drop_actions p hs he, not_occupied_iff]
    constructor
    · rintro ⟨_, t2, h1, h2, h3, h4, heq⟩
      have e2 : t = t2 := by simpa using congrArg action.to_ heq
      subst e2
      obtain ⟨c1, c2, c3⟩ := (testBit_chick_allowed p (b1 _) t h1).mp h4
      refine ⟨h1, ⟨h2, h3⟩, c1, fun l hl hc => ?_,
        (column_free_iff _ t (b1 _) (h2 _)).mp c3⟩
      have e3 : t - 5 = l := by omega
      rw [e3, hl] at c2
      exact Bool.false_ne_true c2.symm
    · rintro ⟨h1, ⟨h2, h3⟩, c1, c2, c3⟩
      refine ⟨ne_of_gt hh, t, h1, h2, h3, ?_, rfl⟩
      refine (testBit_chick_allowed p (b1 _) t h1).mpr ⟨c1, ?_,
        (column_free_iff _ t (b1 _) (h2 _)).mpr c3⟩
      by_contra hc
      exact c2 (t - 5) (by simpa using hc) (by omega)
  · obtain ⟨_, t, h1, _, _, _, heq⟩ :=
      (mem_chick_drop_actions p hs he a).mp ((hmem a).mp ⟨ha, hb, hf⟩)
    exact ⟨t, h1, heq⟩

theorem chick_drop_column_rule_witness :
    chick_in_hand_state.well_formed ∧ 0 < chick_in_hand_state.piece_counts_in_hand 0 ∧
      ((⟨-1, 0, (21 : Nat)⟩ : action) ∈ chick_in_hand_state.actions ↔
        21 < 30 ∧ ¬ chick_in_hand_state.occupied 21 ∧ 5 ≤ 21 ∧
        (∀ l, (chick_in_hand_state.enemy_pieces_on_board piece_type.lion).testBit l = true →
          21 ≠ l + 5) ∧
        (∀ r, r < 6 →
          (chick_in_hand_state.pieces_on_board piece_type.chick).testBit (5 * r + 21 % 5) =
            false)) :=
  ⟨by decide, by decide,
    (chick_drop_column_rule chick_in_hand_state (by decide) (by decide)).1 21⟩


end barys
